import Mathlib

/-!
Verification of the haltech-docs-scraper pipeline.

Strings are modelled as `List Char` (the contents of a Python `str`).
The CPython primitives the code calls (`urllib.parse.urlsplit`,
`urlunsplit`, `urljoin`, `pathlib.PurePosixPath.name`, `str.replace`,
`str.strip`, `re.sub` on fixed patterns) are embedded faithfully below,
following the CPython 3.11 sources, and the repository functions
(`normalize_url`, `is_valid_url`, `categorize_article`,
`get_image_filename`, `clean_filename`, the scrape scheduler and the
image pipeline) are translated on top of them.
-/

namespace Haltech

/-- The characters CPython removes from a URL before splitting
(`_UNSAFE_URL_BYTES_TO_REMOVE`). -/
def isUrlCleanCh (c : Char) : Bool := !(c == '\t' || c == '\r' || c == '\n')

/-- Python `str.lower` restricted to the per-character case mapping. -/
def lowerStr (l : List Char) : List Char := l.map Char.toLower

/-- Boolean list-prefix test (`needle` begins `hay`). -/
def isPrefixCh : List Char → List Char → Bool
  | [], _ => true
  | _ :: _, [] => false
  | a :: as, b :: bs => a == b && isPrefixCh as bs

/-- Python substring containment `needle in hay`. -/
def containsSub (needle : List Char) : List Char → Bool
  | [] => isPrefixCh needle []
  | c :: rest => isPrefixCh needle (c :: rest) || containsSub needle rest

/-- Python whitespace as matched by `\s` and stripped by `str.strip`
(ASCII part plus the common Unicode space characters). -/
def isPySpace (c : Char) : Bool :=
  c == ' ' || c == '\t' || c == '\n' || c == '\r' ||
  c == '\x0b' || c == '\x0c' ||
  c == '\x1c' || c == '\x1d' || c == '\x1e' || c == '\x1f' ||
  c == '\x85' || c == '\xa0'

/-- Python `str.strip()` (no argument): drop whitespace from both ends. -/
def pyStrip (l : List Char) : List Char :=
  ((l.dropWhile isPySpace).reverse.dropWhile isPySpace).reverse

/-- `re.sub(r"\s+", " ", s)`: each maximal whitespace run becomes one
space.  Implemented keeping the last character of every run. -/
def collapseWs : List Char → List Char
  | [] => []
  | c :: rest =>
    if isPySpace c then
      match rest with
      | [] => [' ']
      | d :: _ => if isPySpace d then collapseWs rest else ' ' :: collapseWs rest
    else c :: collapseWs rest

/-- Python `s.split(sep)` for a one-character separator: always returns a
non-empty list of (possibly empty) pieces. -/
def splitOnCh (sep : Char) : List Char → List (List Char)
  | [] => [[]]
  | d :: rest =>
    let r := splitOnCh sep rest
    if d == sep then [] :: r
    else
      match r with
      | h :: t => (d :: h) :: t
      | [] => [[d]]

/-- Helper for `pyReplace` with an empty pattern: `new` after every char. -/
def interAfter (new : List Char) : List Char → List Char
  | [] => []
  | c :: rest => c :: (new ++ interAfter new rest)

/-- Fuel-driven body of `pyReplace`; the fuel is an upper bound on the
length of the remaining text, so the recursion is structural. -/
def replFuel (old new : List Char) : Nat → List Char → List Char
  | 0, s => s
  | f + 1, s =>
    match s with
    | [] => []
    | c :: rest =>
      if isPrefixCh old s then new ++ replFuel old new f (s.drop old.length)
      else c :: replFuel old new f rest

/-- Python `s.replace(old, new)` (all non-overlapping occurrences, left
to right; an empty `old` intersperses `new` everywhere). -/
def pyReplace (s old new : List Char) : List Char :=
  match old with
  | [] => new ++ interAfter new s
  | _ :: _ => replFuel old new s.length s

/-- Python `str.title()`: uppercase every cased character that follows an
uncased one, lowercase the rest. -/
def pyTitleGo : Bool → List Char → List Char
  | _, [] => []
  | prevCased, c :: rest =>
    let c' := if c.isAlpha then (if prevCased then c.toLower else c.toUpper) else c
    c' :: pyTitleGo c.isAlpha rest

/-- Python `str.title()`. -/
def pyTitle (l : List Char) : List Char := pyTitleGo false l

/-- Boolean list-suffix test. -/
def isSuffixCh (suffix l : List Char) : Bool := isPrefixCh suffix.reverse l.reverse

/-- Index of the last occurrence of `c` (Python `str.rfind` when present). -/
def lastIdxOfCh (c : Char) (l : List Char) : Option Nat :=
  (l.reverse.findIdx? (fun x => x == c)).map (fun j => l.length - 1 - j)

/-- First index of `c` at or after `start` (Python `str.find(c, start)`). -/
def findIdxFromCh (c : Char) (start : Nat) (l : List Char) : Option Nat :=
  ((l.drop start).findIdx? (fun x => x == c)).map (fun j => j + start)

/-! ## CPython `urllib.parse` (3.11), the parts the repository calls -/

/-- `scheme_chars` from `urllib.parse`. -/
def schemeChars : List Char :=
  "abcdefghijklmnopqrstuvwxyzABCDEFGHIJKLMNOPQRSTUVWXYZ0123456789+-.".data

/-- `uses_relative` from `urllib.parse`. -/
def usesRelative : List (List Char) :=
  ["".data, "ftp".data, "http".data, "gopher".data, "nntp".data, "imap".data,
   "wais".data, "file".data, "https".data, "shttp".data, "mms".data,
   "prospero".data, "rtsp".data, "rtspu".data, "sftp".data,
   "svn".data, "svn+ssh".data, "ws".data, "wss".data]

/-- `uses_netloc` from `urllib.parse`. -/
def usesNetloc : List (List Char) :=
  ["".data, "ftp".data, "http".data, "gopher".data, "nntp".data, "telnet".data,
   "imap".data, "wais".data, "file".data, "mms".data, "https".data, "shttp".data,
   "snews".data, "prospero".data, "rtsp".data, "rtspu".data, "rsync".data,
   "svn".data, "svn+ssh".data, "sftp".data, "nfs".data, "git".data, "git+ssh".data,
   "ws".data, "wss".data]

/-- `uses_params` from `urllib.parse`. -/
def usesParams : List (List Char) :=
  ["".data, "ftp".data, "hdl".data, "prospero".data, "http".data, "imap".data,
   "https".data, "shttp".data, "rtsp".data, "rtspu".data, "sip".data, "sips".data,
   "mms".data, "sftp".data, "tel".data]

/-- Result of `urlsplit`. -/
structure SplitResult where
  scheme : List Char
  netloc : List Char
  path : List Char
  query : List Char
  fragment : List Char
deriving DecidableEq

/-- Result of `urlparse` (adds the `params` component). -/
structure ParseResult where
  scheme : List Char
  netloc : List Char
  path : List Char
  params : List Char
  query : List Char
  fragment : List Char
deriving DecidableEq

/-- Scheme extraction step of `urlsplit`, with the default scheme
`dflt` used when the URL carries none. -/
def splitSchemeD (dflt : List Char) (u : List Char) : List Char × List Char :=
  match u.findIdx? (fun c => c == ':') with
  | some i =>
    if 0 < i ∧ (u.headD ' ').toNat ≤ 127 ∧ (u.headD ' ').isAlpha ∧
        (u.take i).all (fun c => schemeChars.contains c)
    then ((u.take i).map Char.toLower, u.drop (i + 1))
    else (dflt, u)
  | none => (dflt, u)

/-- Characters ending the netloc in `_splitnetloc`. -/
def isNetlocDelim (c : Char) : Bool := c == '/' || c == '?' || c == '#'

/-- CPython `urlsplit` (3.11).  `allow_fragments` is always true in this
repository.  The IPv6-bracket mismatch raises `ValueError`, modelled as
`Except.error`.  The NFKC netloc check (`_checknetloc`), which consults
the external `unicodedata` primitive and can only fire on non-ASCII
netlocs, is modelled as passing; theorems about URL strings therefore
carry an all-ASCII hypothesis where it matters. -/
def urlsplitE (dflt : List Char) (u0 : List Char) : Except Unit SplitResult :=
  let u := u0.filter isUrlCleanCh
  let sp := splitSchemeD dflt u
  let scheme := sp.1
  let u1 := sp.2
  let nl :=
    if u1.take 2 = ['/', '/'] then
      ((u1.drop 2).takeWhile (fun c => !isNetlocDelim c),
       (u1.drop 2).dropWhile (fun c => !isNetlocDelim c))
    else ([], u1)
  let netloc := nl.1
  let u2 := nl.2
  if (netloc.contains '[' && !netloc.contains ']') ||
     (netloc.contains ']' && !netloc.contains '[') then .error ()
  else
    let fr :=
      if u2.contains '#' then
        (u2.takeWhile (fun c => c != '#'), (u2.dropWhile (fun c => c != '#')).drop 1)
      else (u2, [])
    let qu :=
      if fr.1.contains '?' then
        (fr.1.takeWhile (fun c => c != '?'), (fr.1.dropWhile (fun c => c != '?')).drop 1)
      else (fr.1, [])
    .ok ⟨scheme, netloc, qu.1, qu.2, fr.2⟩

/-- CPython `_splitparams`: split the params off the last path segment. -/
def splitParams (p : List Char) : List Char × List Char :=
  if p.contains '/' then
    match findIdxFromCh ';' ((lastIdxOfCh '/' p).getD 0) p with
    | some i => (p.take i, p.drop (i + 1))
    | none => (p, [])
  else
    match p.findIdx? (fun c => c == ';') with
    | some i => (p.take i, p.drop (i + 1))
    | none => (p, [])

/-- CPython `urlparse`. -/
def urlparseE (dflt : List Char) (u : List Char) : Except Unit ParseResult :=
  match urlsplitE dflt u with
  | .error e => .error e
  | .ok r =>
    let pp :=
      if usesParams.contains r.scheme && r.path.contains ';' then splitParams r.path
      else (r.path, [])
    .ok ⟨r.scheme, r.netloc, pp.1, pp.2, r.query, r.fragment⟩

/-- CPython `urlunsplit`. -/
def urlunsplit (r : SplitResult) : List Char :=
  let url0 := r.path
  let url1 :=
    if !r.netloc.isEmpty ||
       (!r.scheme.isEmpty && usesNetloc.contains r.scheme && url0.take 2 != ['/', '/'])
    then
      let u' := if !url0.isEmpty && url0.take 1 != ['/'] then '/' :: url0 else url0
      '/' :: '/' :: (r.netloc ++ u')
    else url0
  let url2 := if !r.scheme.isEmpty then r.scheme ++ ':' :: url1 else url1
  let url3 := if !r.query.isEmpty then url2 ++ '?' :: r.query else url2
  if !r.fragment.isEmpty then url3 ++ '#' :: r.fragment else url3

/-- Rejoin path and params as `urlunparse` does. -/
def rejoinParams (path params : List Char) : List Char :=
  if !params.isEmpty then path ++ ';' :: params else path

/-- CPython `urlunparse`, i.e. `ParseResult.geturl`. -/
def geturl (pr : ParseResult) : List Char :=
  urlunsplit ⟨pr.scheme, pr.netloc, rejoinParams pr.path pr.params, pr.query, pr.fragment⟩

/-- Middle-of-list cleanup of `urljoin`: `segments[1:-1] =
filter(None, segments[1:-1])` applied to the tail of the segment list
(the final element survives even when empty). -/
def filterInner : List (List Char) → List (List Char)
  | [] => []
  | [x] => [x]
  | x :: rest => if x.isEmpty then filterInner rest else x :: filterInner rest

/-- CPython `urljoin` (3.11). -/
def urljoinE (base url : List Char) : Except Unit (List Char) :=
  if base.isEmpty then .ok url
  else if url.isEmpty then .ok base
  else do
    let b ← urlparseE [] base
    let r ← urlparseE b.scheme url
    if r.scheme != b.scheme || !usesRelative.contains r.scheme then .ok url
    else if usesNetloc.contains r.scheme && !r.netloc.isEmpty then
      .ok (geturl ⟨r.scheme, r.netloc, r.path, r.params, r.query, r.fragment⟩)
    else
      let netloc := if usesNetloc.contains r.scheme then b.netloc else r.netloc
      if r.path.isEmpty && r.params.isEmpty then
        let query := if r.query.isEmpty then b.query else r.query
        .ok (geturl ⟨r.scheme, netloc, b.path, b.params, query, r.fragment⟩)
      else
        let baseParts0 := splitOnCh '/' b.path
        let baseParts :=
          if baseParts0.getLast? != some [] then baseParts0.dropLast else baseParts0
        let segments :=
          if r.path.take 1 = ['/'] then splitOnCh '/' r.path
          else
            match baseParts ++ splitOnCh '/' r.path with
            | [] => []
            | h :: t => h :: filterInner t
        let resolved := segments.foldl
          (fun acc seg =>
            if seg == "..".data then acc.dropLast
            else if seg == ".".data then acc
            else acc ++ [seg]) []
        let resolved :=
          if segments.getLast? == some (".".data) || segments.getLast? == some ("..".data)
          then resolved ++ [[]] else resolved
        let joined := List.intercalate ['/'] resolved
        let fpath := if joined.isEmpty then ['/'] else joined
        .ok (geturl ⟨r.scheme, netloc, fpath, r.params, r.query, r.fragment⟩)

/-- CPython `PurePosixPath(p).name`: last retained component (empty and
single-dot components are dropped by the path parser). -/
def posixPathName (p : List Char) : List Char :=
  (((splitOnCh '/' p).filter (fun c => !c.isEmpty && c != ".".data)).getLast?).getD []

/-! ## config.py -/

/-- `config.MAX_RETRIES`. -/
def MAX_RETRIES : Nat := 3

/-- `config.EXCLUDE_PATTERNS`. -/
def EXCLUDE_PATTERNS : List (List Char) :=
  ["login".data, "signup".data, "account".data, "portal/api".data]

/-! ## src/utils.py -/

/-- `utils.normalize_url(url, base_url)`; an empty `base` plays the role
of Python `None` (both are falsy). -/
def normalize_url (url base : List Char) : Except Unit (List Char) :=
  match (if base.isEmpty then .ok url else urljoinE base url) with
  | .error e => .error e
  | .ok u =>
    match urlparseE [] u with
    | .error e => .error e
    | .ok pr =>
      let normalized := geturl { pr with fragment := [] }
      .ok (if normalized.getLast? == some '/' then normalized.dropLast else normalized)

/-- `utils.is_valid_url`. -/
def is_valid_url (url : List Char) : Except Unit Bool :=
  if url.isEmpty then .ok false
  else
    match urlparseE [] url with
    | .error e => .error e
    | .ok pr =>
      if !isPrefixCh ("support.haltech.com".data) pr.netloc then .ok false
      else if EXCLUDE_PATTERNS.any (fun pat => containsSub pat (lowerStr url)) then .ok false
      else .ok true

/-- The characters `utils.clean_filename` strips. -/
def invalidFileChars : List Char := "<>:\"|?*".data

/-- `utils.clean_filename`. -/
def clean_filename (filename : List Char) : List Char :=
  pyStrip (collapseWs (filename.filter (fun c => !invalidFileChars.contains c)))

/-- The recognised image extensions of `utils.get_image_filename`. -/
def imageExts : List (List Char) :=
  [".jpg".data, ".jpeg".data, ".png".data, ".gif".data, ".webp".data, ".svg".data]

/-- `utils.get_image_filename(url, index)`.  `index or 0` maps both
`None` and `0` to `0`. -/
def get_image_filename (url : List Char) (index : Option Nat) : Except Unit (List Char) :=
  match urlparseE [] url with
  | .error e => .error e
  | .ok pr =>
  let fn0 := posixPathName pr.path
  let fn1 :=
    if fn0.isEmpty || fn0 == "/".data
    then "image_".data ++ (Nat.repr (index.getD 0)).data
    else fn0
  let fn2 := if imageExts.any (fun ext => isSuffixCh ext fn1) then fn1 else fn1 ++ ".jpg".data
  .ok (clean_filename fn2)

/-! ## src/category_mapper.py -/

/-- `ENGINE_MAPPINGS`, in declaration order. -/
def ENGINE_MAPPINGS : List (List Char × List Char) :=
  [("bmw".data, "technical-library/engines/bmw".data),
   ("m50".data, "technical-library/engines/bmw".data),
   ("m52".data, "technical-library/engines/bmw".data),
   ("m54".data, "technical-library/engines/bmw".data),
   ("s50".data, "technical-library/engines/bmw".data),
   ("s52".data, "technical-library/engines/bmw".data),
   ("s54".data, "technical-library/engines/bmw".data),
   ("n54".data, "technical-library/engines/bmw".data),
   ("n55".data, "technical-library/engines/bmw".data),
   ("ford".data, "technical-library/engines/ford".data),
   ("barra".data, "technical-library/engines/ford".data),
   ("windsor".data, "technical-library/engines/ford".data),
   ("modular".data, "technical-library/engines/ford".data),
   ("coyote".data, "technical-library/engines/ford".data),
   ("ecoboost".data, "technical-library/engines/ford".data),
   ("honda".data, "technical-library/engines/honda".data),
   ("b-series".data, "technical-library/engines/honda".data),
   ("b16".data, "technical-library/engines/honda".data),
   ("b18".data, "technical-library/engines/honda".data),
   ("b20".data, "technical-library/engines/honda".data),
   ("d-series".data, "technical-library/engines/honda".data),
   ("d16".data, "technical-library/engines/honda".data),
   ("k-series".data, "technical-library/engines/honda".data),
   ("k20".data, "technical-library/engines/honda".data),
   ("k24".data, "technical-library/engines/honda".data),
   ("mazda".data, "technical-library/engines/mazda".data),
   ("miata".data, "technical-library/engines/mazda".data),
   ("mx-5".data, "technical-library/engines/mazda".data),
   ("mx5".data, "technical-library/engines/mazda".data),
   ("na-nb".data, "technical-library/engines/mazda".data),
   ("bp".data, "technical-library/engines/mazda".data),
   ("b6".data, "technical-library/engines/mazda".data),
   ("rotary".data, "technical-library/engines/mazda".data),
   ("13b".data, "technical-library/engines/mazda".data),
   ("20b".data, "technical-library/engines/mazda".data),
   ("mitsubishi".data, "technical-library/engines/mitsubishi".data),
   ("4g63".data, "technical-library/engines/mitsubishi".data),
   ("4g93".data, "technical-library/engines/mitsubishi".data),
   ("4b11".data, "technical-library/engines/mitsubishi".data),
   ("evo".data, "technical-library/engines/mitsubishi".data),
   ("nissan".data, "technical-library/engines/nissan".data),
   ("rb".data, "technical-library/engines/nissan".data),
   ("rb20".data, "technical-library/engines/nissan".data),
   ("rb25".data, "technical-library/engines/nissan".data),
   ("rb26".data, "technical-library/engines/nissan".data),
   ("rb30".data, "technical-library/engines/nissan".data),
   ("sr20".data, "technical-library/engines/nissan".data),
   ("vq".data, "technical-library/engines/nissan".data),
   ("vq35".data, "technical-library/engines/nissan".data),
   ("vr38".data, "technical-library/engines/nissan".data),
   ("ca18".data, "technical-library/engines/nissan".data),
   ("subaru".data, "technical-library/engines/subaru".data),
   ("ej".data, "technical-library/engines/subaru".data),
   ("ej20".data, "technical-library/engines/subaru".data),
   ("ej25".data, "technical-library/engines/subaru".data),
   ("fa20".data, "technical-library/engines/subaru".data),
   ("fb".data, "technical-library/engines/subaru".data),
   ("toyota".data, "technical-library/engines/toyota".data),
   ("1jz".data, "technical-library/engines/toyota".data),
   ("2jz".data, "technical-library/engines/toyota".data),
   ("1uz".data, "technical-library/engines/toyota".data),
   ("2uz".data, "technical-library/engines/toyota".data),
   ("3uz".data, "technical-library/engines/toyota".data),
   ("4ag".data, "technical-library/engines/toyota".data),
   ("3sg".data, "technical-library/engines/toyota".data),
   ("2zz".data, "technical-library/engines/toyota".data),
   ("1nz".data, "technical-library/engines/toyota".data),
   ("2az".data, "technical-library/engines/toyota".data),
   ("2rz".data, "technical-library/engines/toyota".data),
   ("3rz".data, "technical-library/engines/toyota".data),
   ("vw".data, "technical-library/engines/vw".data),
   ("volkswagen".data, "technical-library/engines/vw".data),
   ("audi".data, "technical-library/engines/vw".data),
   ("1.8t".data, "technical-library/engines/vw".data),
   ("1.8-turbo".data, "technical-library/engines/vw".data),
   ("2.0t".data, "technical-library/engines/vw".data),
   ("vr6".data, "technical-library/engines/vw".data),
   ("gm".data, "technical-library/engines/gm".data),
   ("chevrolet".data, "technical-library/engines/gm".data),
   ("chevy".data, "technical-library/engines/gm".data),
   ("ls".data, "technical-library/engines/gm".data),
   ("ls1".data, "technical-library/engines/gm".data),
   ("ls2".data, "technical-library/engines/gm".data),
   ("ls3".data, "technical-library/engines/gm".data),
   ("ls6".data, "technical-library/engines/gm".data),
   ("ls7".data, "technical-library/engines/gm".data),
   ("lsx".data, "technical-library/engines/gm".data)]

/-- `PRODUCT_MAPPINGS`, in declaration order. -/
def PRODUCT_MAPPINGS : List (List Char × List Char) :=
  [("elite".data, "products/elite-series".data),
   ("elite-1000".data, "products/elite-series".data),
   ("elite-1500".data, "products/elite-series".data),
   ("elite-2000".data, "products/elite-series".data),
   ("elite-2500".data, "products/elite-series".data),
   ("nexus".data, "products/nexus-series".data),
   ("nexus-r3".data, "products/nexus-series".data),
   ("nexus-r5".data, "products/nexus-series".data),
   ("nexus-s3".data, "products/nexus-series".data),
   ("ic-7".data, "products/displays".data),
   ("iq3".data, "products/displays".data),
   ("dash".data, "products/displays".data),
   ("display".data, "products/displays".data),
   ("wideband".data, "products/sensors".data),
   ("wb1".data, "products/sensors".data),
   ("wb2".data, "products/sensors".data)]

/-- `TECHNICAL_MAPPINGS`, in declaration order. -/
def TECHNICAL_MAPPINGS : List (List Char × List Char) :=
  [("trigger".data, "technical-library/triggers".data),
   ("crank-trigger".data, "technical-library/triggers".data),
   ("cam-trigger".data, "technical-library/triggers".data),
   ("home-signal".data, "technical-library/triggers".data),
   ("fuel".data, "technical-library/fuel".data),
   ("injector".data, "technical-library/fuel".data),
   ("fuel-pump".data, "technical-library/fuel".data),
   ("flex-fuel".data, "technical-library/fuel".data),
   ("e85".data, "technical-library/fuel".data),
   ("ignition".data, "technical-library/ignition-systems".data),
   ("coil".data, "technical-library/ignition-systems".data),
   ("spark".data, "technical-library/ignition-systems".data),
   ("cdi".data, "technical-library/ignition-systems".data),
   ("sensor".data, "technical-library/sensors".data),
   ("map".data, "technical-library/sensors".data),
   ("maf".data, "technical-library/sensors".data),
   ("tps".data, "technical-library/sensors".data),
   ("iat".data, "technical-library/sensors".data),
   ("ect".data, "technical-library/sensors".data),
   ("lambda".data, "technical-library/sensors".data),
   ("o2".data, "technical-library/sensors".data),
   ("boost".data, "technical-library/functions".data),
   ("idle".data, "technical-library/functions".data),
   ("launch".data, "technical-library/functions".data),
   ("antilag".data, "technical-library/functions".data),
   ("traction".data, "technical-library/functions".data),
   ("nitrous".data, "technical-library/functions".data),
   ("cam-control".data, "technical-library/functions".data),
   ("vvt".data, "technical-library/functions".data)]

/-- `SOFTWARE_MAPPINGS`, in declaration order. -/
def SOFTWARE_MAPPINGS : List (List Char × List Char) :=
  [("nsp".data, "nexus-software-programmer-nsp".data),
   ("nexus-software".data, "nexus-software-programmer-nsp".data),
   ("esp".data, "elite-software-programmer".data),
   ("elite-software".data, "elite-software-programmer".data),
   ("datalog".data, "software/datalog".data),
   ("tuning".data, "software/tuning".data)]

/-- First table entry whose keyword occurs in `txt`; the tables are
ordered, so this is the first-match-in-declaration-order scan of
`categorize_article`. -/
def firstMatch (tbl : List (List Char × List Char)) (txt : List Char) : Option (List Char) :=
  (tbl.find? (fun kv => containsSub kv.1 txt)).map (fun kv => kv.2)

/-- Breadcrumb synthesis used on every table hit in `categorize_article`. -/
def mkBreadcrumbs (category : List Char) : List (List Char) :=
  "Knowledge Base".data :: "Haltech".data ::
    (splitOnCh '/' category).map (fun p => pyTitle (pyReplace p "-".data " ".data))

/-- The literal of the fallback regex of `categorize_article`. -/
def kbArticlesLit : List Char := "/kb/articles/".data

/-- `re.search(r"/kb/articles/([^/?]+)", url)`: first position where the
literal is followed by a non-empty run of characters other than `/` and
`?`; the captured group. -/
def articleSlugFrom : List Char → Option (List Char)
  | [] => none
  | c :: rest =>
    if isPrefixCh kbArticlesLit (c :: rest) then
      let run := ((c :: rest).drop kbArticlesLit.length).takeWhile
        (fun d => !(d == '/' || d == '?'))
      if !run.isEmpty then some run else articleSlugFrom rest
    else articleSlugFrom rest

/-- The catch-all result of `categorize_article`. -/
def defaultCategory : List Char × List (List Char) :=
  ("articles".data, ["Knowledge Base".data, "Haltech".data, "Articles".data])

/-- `category_mapper.categorize_article(url, title, content)`. -/
def categorize_article (url title content : List Char) : List Char × List (List Char) :=
  let url_lower := lowerStr url
  let title_lower := lowerStr title
  let content_lower := lowerStr content
  let combined := url_lower ++ ' ' :: title_lower ++ ' ' :: content_lower.take 500
  match firstMatch ENGINE_MAPPINGS combined with
  | some cat => (cat, mkBreadcrumbs cat)
  | none =>
  match firstMatch PRODUCT_MAPPINGS combined with
  | some cat => (cat, mkBreadcrumbs cat)
  | none =>
  match firstMatch TECHNICAL_MAPPINGS combined with
  | some cat => (cat, mkBreadcrumbs cat)
  | none =>
  match firstMatch SOFTWARE_MAPPINGS combined with
  | some cat => (cat, mkBreadcrumbs cat)
  | none =>
    if containsSub kbArticlesLit url then
      match articleSlugFrom url with
      | some slug =>
        if ["engine".data, "motor".data].any (fun k => containsSub k slug) then
          ("technical-library/engines".data,
           ["Knowledge Base".data, "Haltech".data, "Technical Library".data, "Engines".data])
        else if ["trigger".data, "crank".data, "cam".data].any (fun k => containsSub k slug) then
          ("technical-library/triggers".data,
           ["Knowledge Base".data, "Haltech".data, "Technical Library".data, "Triggers".data])
        else if ["fuel".data, "injector".data].any (fun k => containsSub k slug) then
          ("technical-library/fuel".data,
           ["Knowledge Base".data, "Haltech".data, "Technical Library".data, "Fuel".data])
        else if ["wire".data, "wiring".data, "harness".data, "pinout".data].any
            (fun k => containsSub k slug) then
          ("technical-library/wiring".data,
           ["Knowledge Base".data, "Haltech".data, "Technical Library".data, "Wiring".data])
        else if ["tune".data, "tuning".data, "map".data].any (fun k => containsSub k slug) then
          ("technical-library/tuning".data,
           ["Knowledge Base".data, "Haltech".data, "Technical Library".data, "Tuning".data])
        else defaultCategory
      | none => defaultCategory
    else defaultCategory

/-! ## src/parser.py — content extraction

The BeautifulSoup primitives (`select_one`, `get_text`, `decompose`,
`find_all`) are external collaborators; a `Soup` packages what the
extraction logic observes through them: per selector the candidate
content region (with its pruned text length and rendering), the
block-level containers the heuristic scores, and the document body. -/

/-- What `_extract_content` observes about one selector hit: the text
length after the nav/aside/sidebar/related pruning, and `str(content)`. -/
structure ContentCandidate where
  textLen : Nat
  rendered : List Char

/-- What `_extract_content_heuristic` observes about one block container:
stripped text length, paragraph count, and `str(elem)`. -/
structure HeurElem where
  textLen : Nat
  pCount : Nat
  rendered : List Char

/-- The parsed page, through the collaborator interface. -/
structure Soup where
  selectOne : List Char → Option ContentCandidate
  blockElems : List HeurElem
  body : Option (List Char)

/-- `ArticleParser.content_selectors`, in order. -/
def content_selectors : List (List Char) :=
  [".article-content".data, ".kb-article-content".data, ".content-wrapper".data,
   "article".data, "main".data, ".main-content".data, "#main-content".data,
   ".post-content".data, ".entry-content".data, "div[role=\"main\"]".data]

/-- Stable descending insertion by score, matching
`containers.sort(key=lambda x: x[1], reverse=True)`. -/
def insDesc (x : HeurElem × Nat) : List (HeurElem × Nat) → List (HeurElem × Nat)
  | [] => [x]
  | y :: ys => if y.2 < x.2 then x :: y :: ys else y :: insDesc x ys

/-- Stable descending sort by score. -/
def sortDesc (l : List (HeurElem × Nat)) : List (HeurElem × Nat) := l.foldr insDesc []

/-- The scored containers kept by `_extract_content_heuristic`:
`score = textLength + 50 * paragraphCount`, kept when above 200. -/
def scored_containers (s : Soup) : List (HeurElem × Nat) :=
  s.blockElems.filterMap (fun e =>
    let score := e.textLen + e.pCount * 50
    if score > 200 then some (e, score) else none)

/-- `ArticleParser._extract_content_heuristic`. -/
def extract_content_heuristic (s : Soup) : List Char :=
  match sortDesc (scored_containers s) with
  | (e, _) :: _ => e.rendered
  | [] =>
    match s.body with
    | some b => b
    | none => []

/-- Selector cascade of `ArticleParser._extract_content`: accept the
first selector whose pruned text is longer than 100 characters, else
fall through to the heuristic. -/
def extract_content_go (s : Soup) : List (List Char) → List Char
  | [] => extract_content_heuristic s
  | sel :: rest =>
    match s.selectOne sel with
    | some c => if c.textLen > 100 then c.rendered else extract_content_go s rest
    | none => extract_content_go s rest

/-- `ArticleParser._extract_content`. -/
def extract_content (s : Soup) : List Char := extract_content_go s content_selectors

/-! ## src/converter.py

`HTMLToMarkdownConverter.convert` wraps `_clean_html`, `markdownify` and
`_post_process_markdown` in one `try`, returning the empty string on any
exception.  The three steps run on external primitives (BeautifulSoup,
markdownify, `re`), so they enter the model as `Except`-valued
collaborator functions. -/

/-- The body of the `try` block of `convert`. -/
def convertPipeline (clean render post : List Char → Except Unit (List Char))
    (html : List Char) : Except Unit (List Char) := do
  let cleaned ← clean html
  let m ← render cleaned
  post m

/-- `HTMLToMarkdownConverter.convert`. -/
def convert (clean render post : List Char → Except Unit (List Char))
    (html : List Char) : List Char :=
  match convertPipeline clean render post html with
  | .ok r => r
  | .error _ => []

/-! ## src/scraper.py -/

/-- The mutable success and failure sets of `HaltechScraper`. -/
structure ScrapeState where
  scraped : Finset (List Char)
  failed : Finset (List Char)

/-- One article attempt is abstracted by an environment
`env url retry_count`: `true` when the whole `try` body of
`_scrape_article` (navigate, parse, convert, write) succeeds at that
attempt, `false` when any of it raises. -/
def scrapeGo (env : List Char → Nat → Bool) (url : List Char) :
    Nat → Nat → ScrapeState → ScrapeState
  | k, left, s =>
    if url ∈ s.scraped then s
    else if env url k then { s with scraped := insert url s.scraped }
    else
      match left with
      | l + 1 => scrapeGo env url (k + 1) l s
      | 0 => { s with failed := insert url s.failed }

/-- `HaltechScraper._scrape_article(url, retry_count)`: the recursion
depth left is `MAX_RETRIES - retry_count`, mirroring the
`retry_count < config.MAX_RETRIES` guard. -/
def scrape_article (env : List Char → Nat → Bool) (url : List Char) (k : Nat)
    (s : ScrapeState) : ScrapeState :=
  scrapeGo env url k (MAX_RETRIES - k) s

/-- `HaltechScraper._scrape_articles`: every discovered URL is submitted
once; under the cooperative scheduler the per-URL state machines run to
completion, modelled as a fold. -/
def scrape_articles (env : List Char → Nat → Bool) (urls : List (List Char))
    (s : ScrapeState) : ScrapeState :=
  urls.foldl (fun st u => scrape_article env u 0 st) s

/-- Number of times the `try` body runs for `url` inside one
`_scrape_article(url, k)` call. -/
def attemptsGo (env : List Char → Nat → Bool) (url : List Char) :
    Nat → Nat → ScrapeState → Nat
  | k, left, s =>
    if url ∈ s.scraped then 0
    else if env url k then 1
    else
      match left with
      | l + 1 => 1 + attemptsGo env url (k + 1) l s
      | 0 => 1

/-- Attempts consumed by `_scrape_article(url, k)` from state `s`. -/
def article_attempts (env : List Char → Nat → Bool) (url : List Char) (k : Nat)
    (s : ScrapeState) : Nat :=
  attemptsGo env url k (MAX_RETRIES - k) s

/-- Total attempts spent on `u` over a whole scheduler run. -/
def run_attempts (env : List Char → Nat → Bool) :
    List (List Char) → ScrapeState → List Char → Nat
  | [], _, _ => 0
  | v :: rest, s, u =>
    (if v = u then article_attempts env v 0 s else 0) +
      run_attempts env rest (scrape_article env v 0 s) u

/-- One image reference as extracted by the parser. -/
structure ImgData where
  src : List Char
  alt : List Char
  title : List Char

/-- Modelled from the spec: `calculate_relative_path_to_images` is
imported from `src.utils` by `scraper.py` but absent from the sources.
Per the spec (§4.7 and its §8 example) it computes, per document, the
relative path from the document output directory to the shared images
directory: one `..` step per directory level between the document and
the output root, then `images`.  `outputPath` is the document path as
components relative to the output root, the last being the filename. -/
def calculate_relative_path_to_images (outputPath : List (List Char)) : List Char :=
  let depth := outputPath.length - 1
  if depth = 0 then "images".data
  else List.intercalate ['/'] (List.replicate depth "..".data) ++ "/images".data

/-- Per-image body of `HaltechScraper._process_images`.  The image
download is abstracted by `downloadOk` (status 200 and no exception;
failed downloads are logged and skipped).  `normalize_url` runs outside
the `try`, so its `ValueError` propagates; `get_image_filename` runs
inside it, so its failure only skips the image. -/
def imageStep (downloadOk : List Char → Bool) (article_url relToImages : List Char)
    (i : Nat) (img : ImgData) (md : List Char) : Except Unit (List Char) :=
  if img.src.isEmpty then .ok md
  else do
    let absolute ← normalize_url img.src article_url
    if downloadOk absolute then
      match get_image_filename absolute (some i) with
      | .error _ => .ok md
      | .ok filename =>
        let relPath := relToImages ++ '/' :: filename
        let oldMd := "![".data ++ img.alt ++ "](".data ++ img.src
        let newMd := "![".data ++ img.alt ++ "](".data ++ relPath
        let md1 := if containsSub oldMd md then pyReplace md oldMd newMd else md
        let oldMdAbs := "![".data ++ img.alt ++ "](".data ++ absolute
        let md2 := if containsSub oldMdAbs md1 then pyReplace md1 oldMdAbs newMd else md1
        let md3 := pyReplace md2 img.src relPath
        .ok (pyReplace md3 absolute relPath)
    else .ok md

/-- The image loop of `_process_images`. -/
def processImagesGo (downloadOk : List Char → Bool) (article_url relToImages : List Char) :
    Nat → List ImgData → List Char → Except Unit (List Char)
  | _, [], md => .ok md
  | i, img :: rest, md => do
    let md' ← imageStep downloadOk article_url relToImages i img md
    processImagesGo downloadOk article_url relToImages (i + 1) rest md'

/-- Per-image body of `HaltechScraper._ensure_image_references`.
`iterdirStr` is the Python value `str(config.IMAGES_DIR.iterdir())` the
code compares filenames against. -/
def ensureStep (relToImages iterdirStr : List Char) (i : Nat) (img : ImgData)
    (md : List Char) : Except Unit (List Char) :=
  if img.src.isEmpty then .ok md
  else do
    let absolute ← normalize_url img.src []
    let filename ← get_image_filename (if !absolute.isEmpty then absolute else img.src) (some i)
    let relPath := relToImages ++ '/' :: filename
    if !containsSub relPath md && containsSub filename iterdirStr then
      let md1 := if !isSuffixCh "\n\n".data (pyStrip md) then md ++ "\n\n".data else md
      let imageRef := "![".data ++ (if !img.alt.isEmpty then img.alt else "Image".data) ++
        "](".data ++ relPath ++ ")".data
      .ok (if !img.alt.isEmpty then md1 ++ imageRef ++ "\n\n".data
           else md1 ++ "\n".data ++ imageRef ++ "\n\n".data)
    else .ok md

/-- `HaltechScraper._ensure_image_references`. -/
def ensure_image_references (relToImages iterdirStr : List Char) :
    Nat → List ImgData → List Char → Except Unit (List Char)
  | _, [], md => .ok md
  | i, img :: rest, md => do
    let md' ← ensureStep relToImages iterdirStr i img md
    ensure_image_references relToImages iterdirStr (i + 1) rest md'

/-- `HaltechScraper._process_images`. -/
def process_images (downloadOk : List Char → Bool) (md : List Char)
    (images : List ImgData) (article_url : List Char)
    (outputPath : List (List Char)) (iterdirStr : List Char) : Except Unit (List Char) := do
  let relToImages := calculate_relative_path_to_images outputPath
  let md1 ← processImagesGo downloadOk article_url relToImages 0 images md
  ensure_image_references relToImages iterdirStr 0 images md1

/-! ## Basic lemmas about the string primitives -/

theorem isPrefixCh_append (n a b : List Char) (h : isPrefixCh n a = true) :
    isPrefixCh n (a ++ b) = true := by
  induction n generalizing a with
  | nil => simp [isPrefixCh]
  | cons c cs ih =>
    cases a with
    | nil => simp [isPrefixCh] at h
    | cons d ds =>
      simp only [isPrefixCh, Bool.and_eq_true] at h ⊢
      exact ⟨h.1, ih ds h.2⟩

theorem containsSub_cons (n : List Char) (c : Char) (rest : List Char)
    (h : containsSub n rest = true) : containsSub n (c :: rest) = true := by
  simp only [containsSub, Bool.or_eq_true]
  exact Or.inr h

theorem containsSub_of_isPrefixCh (n h : List Char) (hp : isPrefixCh n h = true) :
    containsSub n h = true := by
  cases h with
  | nil => simpa [containsSub] using hp
  | cons c rest => simp only [containsSub, Bool.or_eq_true]; exact Or.inl hp

theorem containsSub_append_left (n a b : List Char) (h : containsSub n a = true) :
    containsSub n (a ++ b) = true := by
  induction a with
  | nil =>
    cases n with
    | nil =>
      cases b with
      | nil => simpa [containsSub] using h
      | cons d ds => simp [containsSub, isPrefixCh]
    | cons c cs => simp [containsSub, isPrefixCh] at h
  | cons c cs ih =>
    simp only [containsSub, Bool.or_eq_true] at h
    rcases h with h | h
    · exact containsSub_of_isPrefixCh _ _ (isPrefixCh_append _ _ _ h)
    · exact containsSub_cons _ _ _ (ih h)

theorem containsSub_append_right (n a b : List Char) (h : containsSub n b = true) :
    containsSub n (a ++ b) = true := by
  induction a with
  | nil => simpa using h
  | cons c cs ih => exact containsSub_cons _ _ _ ih

theorem containsSub_nil_left (h : List Char) : containsSub [] h = true := by
  cases h <;> simp [containsSub, isPrefixCh]

theorem isPrefixCh_space_split (n x y : List Char) (hn : ∀ c ∈ n, c ≠ ' ')
    (h : isPrefixCh n (x ++ ' ' :: y) = true) : isPrefixCh n x = true := by
  induction n generalizing x with
  | nil => simp [isPrefixCh]
  | cons c cs ih =>
    cases x with
    | nil =>
      simp only [List.nil_append, isPrefixCh, Bool.and_eq_true, beq_iff_eq] at h
      exact absurd h.1 (hn c (by simp))
    | cons d ds =>
      simp only [List.cons_append, isPrefixCh, Bool.and_eq_true] at h ⊢
      exact ⟨h.1, ih ds (fun e he => hn e (List.mem_cons_of_mem _ he)) h.2⟩

theorem containsSub_space_split (n x y : List Char) (hn : ∀ c ∈ n, c ≠ ' ')
    (h : containsSub n (x ++ ' ' :: y) = true) :
    containsSub n x = true ∨ containsSub n y = true := by
  induction x with
  | nil =>
    simp only [List.nil_append, containsSub, Bool.or_eq_true] at h
    rcases h with h | h
    · cases n with
      | nil => exact Or.inl (containsSub_nil_left _)
      | cons c cs =>
        simp only [isPrefixCh, Bool.and_eq_true, beq_iff_eq] at h
        exact absurd h.1 (hn c (by simp))
    · exact Or.inr h
  | cons c cs ih =>
    simp only [List.cons_append, containsSub, Bool.or_eq_true] at h
    rcases h with h | h
    · refine Or.inl ?_
      have := isPrefixCh_space_split n (c :: cs) y hn (by simpa using h)
      exact containsSub_of_isPrefixCh _ _ this
    · rcases ih h with h' | h'
      · exact Or.inl (containsSub_cons _ _ _ h')
      · exact Or.inr h'

/-! ## C9: the converter returns rather than raising -/

/-- C9.  `HTMLToMarkdownConverter.convert` is total over its collaborator
pipeline: when the cleaning, rendering or post-processing step fails, it
returns the empty string instead of propagating the exception, and
otherwise it returns the successfully produced Markdown. -/
theorem converter_returns_empty_on_failure
    (clean render post : List Char → Except Unit (List Char)) (html : List Char) :
    (∃ e, convertPipeline clean render post html = .error e ∧
          convert clean render post html = []) ∨
    (∃ m, convertPipeline clean render post html = .ok m ∧
          convert clean render post html = m) := by
  cases h : convertPipeline clean render post html with
  | error e => exact Or.inl ⟨e, rfl, by simp [convert, h]⟩
  | ok m => exact Or.inr ⟨m, rfl, by simp [convert, h]⟩


/-! ## C1 and C5: scheduler bookkeeping -/

theorem scrapeGo_cases (env : List Char → Nat → Bool) (url : List Char) :
    ∀ (left k : Nat) (s : ScrapeState),
    (scrapeGo env url k left s = s ∧ url ∈ s.scraped) ∨
    (∃ j, j ≤ left ∧ env url (k + j) = true ∧ (∀ i, i < j → env url (k + i) = false) ∧
      url ∉ s.scraped ∧
      scrapeGo env url k left s = { s with scraped := insert url s.scraped }) ∨
    ((∀ i, i ≤ left → env url (k + i) = false) ∧ url ∉ s.scraped ∧
      scrapeGo env url k left s = { s with failed := insert url s.failed }) := by
  intro left
  induction left with
  | zero =>
    intro k s
    by_cases hm : url ∈ s.scraped
    · exact Or.inl ⟨by simp [scrapeGo, hm], hm⟩
    · by_cases he : env url k = true
      · refine Or.inr (Or.inl ⟨0, Nat.le_refl _, by simpa using he, ?_, hm, ?_⟩)
        · intro i hi; omega
        · simp [scrapeGo, hm, he]
      · refine Or.inr (Or.inr ⟨?_, hm, by simp [scrapeGo, hm, he]⟩)
        intro i hi
        have : i = 0 := Nat.le_zero.mp hi
        subst this
        simpa using Bool.eq_false_iff.mpr (fun hc => he (by simpa using hc))
  | succ l ih =>
    intro k s
    by_cases hm : url ∈ s.scraped
    · exact Or.inl ⟨by simp [scrapeGo, hm], hm⟩
    · by_cases he : env url k = true
      · refine Or.inr (Or.inl ⟨0, Nat.zero_le _, by simpa using he, ?_, hm, ?_⟩)
        · intro i hi; omega
        · simp [scrapeGo, hm, he]
      · have hrec : scrapeGo env url k (l + 1) s = scrapeGo env url (k + 1) l s := by
          simp [scrapeGo, hm, he]
        have he' : env url k = false := Bool.eq_false_iff.mpr he
        rcases ih (k + 1) s with ⟨heq, hmem⟩ | ⟨j, hj, htrue, hfalse, hnm, heq⟩ |
          ⟨hall, hnm, heq⟩
        · exact absurd hmem hm
        · refine Or.inr (Or.inl ⟨j + 1, by omega, ?_, ?_, hm, by rw [hrec, heq]⟩)
          · have : k + 1 + j = k + (j + 1) := by omega
            rwa [this] at htrue
          · intro i hi
            cases i with
            | zero => simpa using he'
            | succ i' =>
              have : k + 1 + i' = k + (i' + 1) := by omega
              rw [← this]
              exact hfalse i' (by omega)
        · refine Or.inr (Or.inr ⟨?_, hm, by rw [hrec, heq]⟩)
          intro i hi
          cases i with
          | zero => simpa using he'
          | succ i' =>
            have : k + 1 + i' = k + (i' + 1) := by omega
            rw [← this]
            exact hall i' (by omega)

theorem scrape_article_cases (env : List Char → Nat → Bool) (url : List Char)
    (s : ScrapeState) :
    (scrape_article env url 0 s = s ∧ url ∈ s.scraped) ∨
    (∃ j, j ≤ MAX_RETRIES ∧ env url j = true ∧ url ∉ s.scraped ∧
      scrape_article env url 0 s = { s with scraped := insert url s.scraped }) ∨
    ((∀ i, i ≤ MAX_RETRIES → env url i = false) ∧ url ∉ s.scraped ∧
      scrape_article env url 0 s = { s with failed := insert url s.failed }) := by
  have h := scrapeGo_cases env url MAX_RETRIES 0 s
  simp only [Nat.zero_add] at h
  rcases h with h | ⟨j, hj, ht, _, hnm, heq⟩ | ⟨hall, hnm, heq⟩
  · exact Or.inl (by simpa [scrape_article, MAX_RETRIES] using h)
  · exact Or.inr (Or.inl ⟨j, hj, ht, hnm, by simpa [scrape_article, MAX_RETRIES] using heq⟩)
  · exact Or.inr (Or.inr ⟨hall, hnm, by simpa [scrape_article, MAX_RETRIES] using heq⟩)

/-- Invariant-carrying induction over the scheduler fold. -/
theorem scrape_articles_spec (env : List Char → Nat → Bool) :
    ∀ (urls : List (List Char)) (s : ScrapeState),
    urls.Nodup →
    (∀ u ∈ urls, u ∉ s.scraped ∧ u ∉ s.failed) →
    (∀ u, ¬(u ∈ s.scraped ∧ u ∈ s.failed)) →
    (∀ u ∈ urls,
        u ∈ (scrape_articles env urls s).scraped ∨ u ∈ (scrape_articles env urls s).failed) ∧
    (∀ u, u ∈ (scrape_articles env urls s).scraped → u ∈ s.scraped ∨ u ∈ urls) ∧
    (∀ u, u ∈ (scrape_articles env urls s).failed → u ∈ s.failed ∨ u ∈ urls) ∧
    (∀ u, ¬(u ∈ (scrape_articles env urls s).scraped ∧
            u ∈ (scrape_articles env urls s).failed)) ∧
    (∀ u, u ∈ (scrape_articles env urls s).failed → u ∉ s.failed →
        ∀ k, k ≤ MAX_RETRIES → env u k = false) ∧
    (∀ u, u ∈ (scrape_articles env urls s).scraped → u ∉ s.scraped →
        ∃ k, k ≤ MAX_RETRIES ∧ env u k = true) ∧
    (∀ u, u ∈ s.scraped → u ∈ (scrape_articles env urls s).scraped) ∧
    (∀ u, u ∈ s.failed → u ∈ (scrape_articles env urls s).failed) := by
  intro urls
  induction urls with
  | nil =>
    intro s _ _ hdisj
    refine ⟨by simp, by simp [scrape_articles], by simp [scrape_articles],
      by simpa [scrape_articles] using hdisj, ?_, ?_, by simp [scrape_articles],
      by simp [scrape_articles]⟩
    · intro u hu hnu; exact absurd (by simpa [scrape_articles] using hu) hnu
    · intro u hu hnu; exact absurd (by simpa [scrape_articles] using hu) hnu
  | cons v rest ih =>
    intro s hnd hfresh hdisj
    have hvS : v ∉ s.scraped := (hfresh v (by simp)).1
    have hvF : v ∉ s.failed := (hfresh v (by simp)).2
    have hndr : rest.Nodup := (List.nodup_cons.mp hnd).2
    have hvr : v ∉ rest := (List.nodup_cons.mp hnd).1
    have hfold : scrape_articles env (v :: rest) s =
        scrape_articles env rest (scrape_article env v 0 s) := by
      simp [scrape_articles]
    rcases scrape_article_cases env v s with ⟨heq, hmem⟩ | ⟨j, hj, ht, _, heq⟩ |
      ⟨hall, _, heq⟩
    · exact absurd hmem hvS
    · -- v succeeded: the scraped set gains v
      set s' : ScrapeState := { s with scraped := insert v s.scraped } with hs'
      have hfresh' : ∀ u ∈ rest, u ∉ s'.scraped ∧ u ∉ s'.failed := by
        intro u hu
        have hne : u ≠ v := fun h => hvr (h ▸ hu)
        have := hfresh u (by simp [hu])
        exact ⟨by simp [hs', Finset.mem_insert, hne, this.1], this.2⟩
      have hdisj' : ∀ u, ¬(u ∈ s'.scraped ∧ u ∈ s'.failed) := by
        intro u ⟨h1, h2⟩
        rcases Finset.mem_insert.mp (by simpa [hs'] using h1) with h | h
        · exact hvF (h ▸ h2)
        · exact hdisj u ⟨h, h2⟩
      obtain ⟨c1, c2, c3, c4, c5, c6, c7, c8⟩ := ih s' hndr hfresh' hdisj'
      rw [hfold, heq]
      refine ⟨?_, ?_, ?_, c4, ?_, ?_, ?_, ?_⟩
      · intro u hu
        rcases List.mem_cons.mp hu with h | h
        · subst h; exact Or.inl (c7 u (by simp [hs']))
        · exact c1 u h
      · intro u hu
        rcases c2 u hu with h | h
        · rcases Finset.mem_insert.mp (by simpa [hs'] using h) with h' | h'
          · exact Or.inr (by simp [h'])
          · exact Or.inl h'
        · exact Or.inr (by simp [h])
      · intro u hu
        rcases c3 u hu with h | h
        · exact Or.inl (by simpa [hs'] using h)
        · exact Or.inr (by simp [h])
      · intro u hu hnu
        exact c5 u hu (by simpa [hs'] using hnu)
      · intro u hu hnu
        by_cases huv : u = v
        · subst huv; exact ⟨j, hj, ht⟩
        · exact c6 u hu (by simp [hs', Finset.mem_insert, huv, hnu])
      · intro u hu
        exact c7 u (by simp [hs', Finset.mem_insert, hu])
      · intro u hu; exact c8 u (by simpa [hs'] using hu)
    · -- v exhausted its retries: the failed set gains v
      set s' : ScrapeState := { s with failed := insert v s.failed } with hs'
      have hfresh' : ∀ u ∈ rest, u ∉ s'.scraped ∧ u ∉ s'.failed := by
        intro u hu
        have hne : u ≠ v := fun h => hvr (h ▸ hu)
        have := hfresh u (by simp [hu])
        exact ⟨this.1, by simp [hs', Finset.mem_insert, hne, this.2]⟩
      have hdisj' : ∀ u, ¬(u ∈ s'.scraped ∧ u ∈ s'.failed) := by
        intro u ⟨h1, h2⟩
        rcases Finset.mem_insert.mp (by simpa [hs'] using h2) with h | h
        · exact hvS (h ▸ h1)
        · exact hdisj u ⟨h1, h⟩
      obtain ⟨c1, c2, c3, c4, c5, c6, c7, c8⟩ := ih s' hndr hfresh' hdisj'
      rw [hfold, heq]
      refine ⟨?_, ?_, ?_, c4, ?_, ?_, ?_, ?_⟩
      · intro u hu
        rcases List.mem_cons.mp hu with h | h
        · subst h; exact Or.inr (c8 u (by simp [hs']))
        · exact c1 u h
      · intro u hu
        rcases c2 u hu with h | h
        · exact Or.inl (by simpa [hs'] using h)
        · exact Or.inr (by simp [h])
      · intro u hu
        rcases c3 u hu with h | h
        · rcases Finset.mem_insert.mp (by simpa [hs'] using h) with h' | h'
          · exact Or.inr (by simp [h'])
          · exact Or.inl h'
        · exact Or.inr (by simp [h])
      · intro u hu hnu
        by_cases huv : u = v
        · subst huv; exact fun k hk => hall k hk
        · exact c5 u hu (by simp [hs', Finset.mem_insert, huv, hnu])
      · intro u hu hnu
        exact c6 u hu (by simpa [hs'] using hnu)
      · intro u hu; exact c7 u (by simpa [hs'] using hu)
      · intro u hu
        exact c8 u (by simp [hs', Finset.mem_insert, hu])

/-- C1.  After a scheduler run over a duplicate-free article list `A`
starting from the empty bookkeeping state, `scraped` and `failed`
partition `A`: their union is `A`, their intersection is empty, each
scraped URL had a successful attempt within the retry budget (its
document written), and each failed URL failed all `MAX_RETRIES + 1`
attempts (budget exhausted). -/
theorem scheduler_partition (env : List Char → Nat → Bool) (A : List (List Char))
    (hnd : A.Nodup) :
    (scrape_articles env A ⟨∅, ∅⟩).scraped ∪ (scrape_articles env A ⟨∅, ∅⟩).failed
      = A.toFinset ∧
    (scrape_articles env A ⟨∅, ∅⟩).scraped ∩ (scrape_articles env A ⟨∅, ∅⟩).failed = ∅ ∧
    (∀ u ∈ (scrape_articles env A ⟨∅, ∅⟩).scraped,
      ∃ k, k ≤ MAX_RETRIES ∧ env u k = true) ∧
    (∀ u ∈ (scrape_articles env A ⟨∅, ∅⟩).failed,
      ∀ k, k ≤ MAX_RETRIES → env u k = false) := by
  obtain ⟨c1, c2, c3, c4, c5, c6, _, _⟩ :=
    scrape_articles_spec env A ⟨∅, ∅⟩ hnd (by simp) (by simp)
  refine ⟨?_, ?_, ?_, ?_⟩
  · ext u
    simp only [Finset.mem_union, List.mem_toFinset]
    constructor
    · rintro (h | h)
      · rcases c2 u h with h' | h'
        · simp at h'
        · exact h'
      · rcases c3 u h with h' | h'
        · simp at h'
        · exact h'
    · intro h; exact c1 u h
  · ext u
    simp only [Finset.mem_inter, Finset.not_mem_empty, iff_false]
    exact c4 u
  · intro u hu; exact c6 u hu (by simp)
  · intro u hu; exact c5 u hu (by simp)

/-- Witness for C1 at a concrete run: two articles, one of which
succeeds at the first attempt while the other always fails. -/
theorem scheduler_partition_witness :
    (["a".data, "b".data] : List (List Char)).Nodup ∧
    ((scrape_articles (fun u _ => u == "a".data) ["a".data, "b".data] ⟨∅, ∅⟩).scraped ∪
     (scrape_articles (fun u _ => u == "a".data) ["a".data, "b".data] ⟨∅, ∅⟩).failed
       = (["a".data, "b".data] : List (List Char)).toFinset ∧
     (scrape_articles (fun u _ => u == "a".data) ["a".data, "b".data] ⟨∅, ∅⟩).scraped ∩
     (scrape_articles (fun u _ => u == "a".data) ["a".data, "b".data] ⟨∅, ∅⟩).failed = ∅ ∧
     (∀ u ∈ (scrape_articles (fun u _ => u == "a".data) ["a".data, "b".data] ⟨∅, ∅⟩).scraped,
        ∃ k, k ≤ MAX_RETRIES ∧ (fun (u : List Char) (_ : Nat) => u == "a".data) u k = true) ∧
     (∀ u ∈ (scrape_articles (fun u _ => u == "a".data) ["a".data, "b".data] ⟨∅, ∅⟩).failed,
        ∀ k, k ≤ MAX_RETRIES → (fun (u : List Char) (_ : Nat) => u == "a".data) u k = false)) :=
  ⟨by decide, scheduler_partition (fun u _ => u == "a".data) ["a".data, "b".data] (by decide)⟩

theorem attemptsGo_le (env : List Char → Nat → Bool) (url : List Char) :
    ∀ (left k : Nat) (s : ScrapeState), attemptsGo env url k left s ≤ left + 1 := by
  intro left
  induction left with
  | zero =>
    intro k s
    by_cases hm : url ∈ s.scraped
    · simp [attemptsGo, hm]
    · by_cases he : env url k = true
      · simp [attemptsGo, hm, he]
      · simp [attemptsGo, hm, he]
  | succ l ih =>
    intro k s
    by_cases hm : url ∈ s.scraped
    · simp [attemptsGo, hm]
    · by_cases he : env url k = true
      · simp [attemptsGo, hm, he]
      · have hstep : attemptsGo env url k (l + 1) s = 1 + attemptsGo env url (k + 1) l s := by
          simp [attemptsGo, hm, he]
        have := ih (k + 1) s
        omega

theorem run_attempts_of_not_mem (env : List Char → Nat → Bool) (u : List Char) :
    ∀ (urls : List (List Char)) (s : ScrapeState), u ∉ urls →
    run_attempts env urls s u = 0 := by
  intro urls
  induction urls with
  | nil => intro s _; rfl
  | cons v rest ih =>
    intro s hu
    have hne : ¬(v = u) := fun h => hu (by simp [h])
    simp only [run_attempts, if_neg hne, Nat.zero_add]
    exact ih _ (fun h => hu (by simp [h]))

/-- C5.  Over one scheduler run on a duplicate-free article list, every
URL enters the `try` body of `_scrape_article` at most
`MAX_RETRIES + 1` times: the retry recursion raises `retry_count` up to
`MAX_RETRIES`, after which the URL moves to `failed_urls` and, being
submitted only once, is never attempted again in the run. -/
theorem retry_bound (env : List Char → Nat → Bool) (A : List (List Char))
    (s : ScrapeState) (u : List Char) (hnd : A.Nodup) :
    run_attempts env A s u ≤ MAX_RETRIES + 1 := by
  induction A generalizing s with
  | nil => simp [run_attempts]
  | cons v rest ih =>
    have hndr : rest.Nodup := (List.nodup_cons.mp hnd).2
    by_cases hv : v = u
    · subst hv
      have hvr : v ∉ rest := (List.nodup_cons.mp hnd).1
      have h0 : run_attempts env rest (scrape_article env v 0 s) v = 0 :=
        run_attempts_of_not_mem env v rest _ hvr
      have h1 : article_attempts env v 0 s ≤ MAX_RETRIES + 1 := by
        have := attemptsGo_le env v (MAX_RETRIES - 0) 0 s
        simpa [article_attempts, MAX_RETRIES] using this
      simp only [run_attempts, if_pos rfl, h0, Nat.add_zero]
      exact h1
    · simp only [run_attempts, if_neg hv, Nat.zero_add]
      exact ih _ hndr

/-- Witness for C5: a URL that fails every attempt is tried exactly
`MAX_RETRIES + 1` times, within the bound. -/
theorem retry_bound_witness :
    (["a".data] : List (List Char)).Nodup ∧
    run_attempts (fun _ _ => false) ["a".data] ⟨∅, ∅⟩ ("a".data) ≤ MAX_RETRIES + 1 :=
  ⟨by decide, retry_bound (fun _ _ => false) ["a".data] ⟨∅, ∅⟩ ("a".data) (by decide)⟩

/-! ## C6: image rehosting rewrites to a per-document relative path -/

/-- C6 (the missing `calculate_relative_path_to_images` is modelled from
the spec).  An image with source `/img/diagram.png` in a document three
directory levels below the output root is rewritten to
`../../../images/diagram.png`, and the same document content placed one
level below the root is rewritten to `../images/diagram.png`: the
relative path is recomputed from each document output directory. -/
theorem image_rehost_relative_path :
    process_images (fun _ => true)
      ("Intro\n\n![Diagram](/img/diagram.png)\n\nOutro".data)
      [⟨"/img/diagram.png".data, "Diagram".data, []⟩]
      ("https://support.haltech.com/portal/en/kb/haltech/rb26-wiring-guide".data)
      ["technical-library".data, "engines".data, "nissan".data, "rb26-wiring-guide.md".data]
      ("<generator object Path.iterdir at 0x7f852f304e40>".data)
      = .ok ("Intro\n\n![Diagram](../../../images/diagram.png)\n\nOutro".data) ∧
    process_images (fun _ => true)
      ("Intro\n\n![Diagram](/img/diagram.png)\n\nOutro".data)
      [⟨"/img/diagram.png".data, "Diagram".data, []⟩]
      ("https://support.haltech.com/portal/en/kb/haltech/rb26-wiring-guide".data)
      ["articles".data, "rb26-wiring-guide.md".data]
      ("<generator object Path.iterdir at 0x7f852f304e40>".data)
      = .ok ("Intro\n\n![Diagram](../images/diagram.png)\n\nOutro".data) :=
  ⟨rfl, rfl⟩

/-! ## C7: the closing repair step never fires -/

/-- C7.  The repair step of `_ensure_image_references` tests the
filename against `str(config.IMAGES_DIR.iterdir())`, the printed form of
a generator object, which contains no filenames; so a downloaded image
(`diagram.png`, present in the images directory) that is referenced
nowhere in the document is still not appended: the document is returned
unchanged. -/
theorem ensure_references_never_appends :
    get_image_filename ("https://support.haltech.com/img/diagram.png".data) (some 0)
      = .ok ("diagram.png".data) ∧
    containsSub ("../../../images/diagram.png".data) ("Intro text with no image.".data)
      = false ∧
    containsSub ("diagram.png".data)
      ("<generator object Path.iterdir at 0x7f852f304e40>".data) = false ∧
    ensure_image_references ("../../../images".data)
      ("<generator object Path.iterdir at 0x7f852f304e40>".data) 0
      [⟨"https://support.haltech.com/img/diagram.png".data, "Diagram".data, []⟩]
      ("Intro text with no image.".data)
      = .ok ("Intro text with no image.".data) :=
  ⟨rfl, rfl, rfl, rfl⟩

/-! ## C2: classification of the rb26 wiring guide -/

theorem find?_append_of_none {α : Type} (p : α → Bool) (l₁ l₂ : List α)
    (h : l₁.find? p = none) : (l₁ ++ l₂).find? p = l₂.find? p := by
  induction l₁ with
  | nil => simp
  | cons a l ih =>
    cases hpa : p a with
    | true => rw [List.find?_cons_of_pos _ hpa] at h; exact absurd h (by simp)
    | false =>
      rw [List.find?_cons_of_neg _ (by simp [hpa])] at h
      rw [List.cons_append, List.find?_cons_of_neg _ (by simp [hpa])]
      exact ih h

theorem categorize_article_engine (url title content cat : List Char)
    (h : firstMatch ENGINE_MAPPINGS
      (lowerStr url ++ ' ' :: lowerStr title ++ ' ' :: (lowerStr content).take 500)
      = some cat) :
    categorize_article url title content = (cat, mkBreadcrumbs cat) := by
  simp only [categorize_article]
  rw [h]

/-- C2 (amended).  For the rb26 wiring-guide URL and title, and any
content whose first 500 lowercased characters contain none of the 40
engine keywords declared before `nissan`, `categorize_article` returns
`technical-library/engines/nissan`: the engine table is scanned first
and its first matching keyword in declaration order (here `rb`, or
`nissan` itself when the content supplies it) wins. -/
theorem categorize_rb26 (content : List Char)
    (hc : ∀ kv ∈ ENGINE_MAPPINGS.take 40,
      containsSub kv.1 ((lowerStr content).take 500) = false) :
    (categorize_article
      ("https://support.haltech.com/portal/en/kb/haltech/rb26-wiring-guide/".data)
      ("RB26 Wiring Guide".data) content).1
      = "technical-library/engines/nissan".data := by
  have keyStep : ∀ (A B : List Char),
      (∀ kv ∈ ENGINE_MAPPINGS.take 40, containsSub kv.1 A = false) →
      (∀ kv ∈ ENGINE_MAPPINGS.take 40, containsSub kv.1 B = false) →
      containsSub ("rb".data) A = true →
      firstMatch ENGINE_MAPPINGS (A ++ ' ' :: B)
        = some ("technical-library/engines/nissan".data) := by
    intro A B hAc hBc hrbA
    have hsp : ∀ kv ∈ ENGINE_MAPPINGS.take 40, ∀ c ∈ kv.1, c ≠ ' ' := by decide
    have hE1 : (ENGINE_MAPPINGS.take 40).find?
        (fun kv => containsSub kv.1 (A ++ ' ' :: B)) = none := by
      rw [List.find?_eq_none]
      intro kv hkv
      simp only [Bool.not_eq_true]
      cases hcs : containsSub kv.1 (A ++ ' ' :: B) with
      | false => rfl
      | true =>
        rcases containsSub_space_split kv.1 A B (hsp kv hkv) hcs with h | h
        · rw [hAc kv hkv] at h; exact absurd h (by simp)
        · rw [hBc kv hkv] at h; exact absurd h (by simp)
    have hsplitE : ENGINE_MAPPINGS = ENGINE_MAPPINGS.take 40 ++ ENGINE_MAPPINGS.drop 40 :=
      (List.take_append_drop 40 ENGINE_MAPPINGS).symm
    have hdrop : ENGINE_MAPPINGS.drop 40 =
        ("nissan".data, "technical-library/engines/nissan".data)
        :: ("rb".data, "technical-library/engines/nissan".data)
        :: ENGINE_MAPPINGS.drop 42 := rfl
    unfold firstMatch
    conv_lhs => rw [hsplitE]
    rw [find?_append_of_none _ _ _ hE1, hdrop]
    cases hn : containsSub ("nissan".data) (A ++ ' ' :: B) with
    | true =>
      rw [List.find?_cons_of_pos _ (by simpa using hn)]
      rfl
    | false =>
      rw [List.find?_cons_of_neg _ (by simp [hn])]
      have hrb : containsSub ("rb".data) (A ++ ' ' :: B) = true :=
        containsSub_append_left _ _ _ hrbA
      rw [List.find?_cons_of_pos _ (by simpa using hrb)]
      rfl
  have hfm0 := keyStep
    (lowerStr ("https://support.haltech.com/portal/en/kb/haltech/rb26-wiring-guide/".data)
      ++ ' ' :: lowerStr ("RB26 Wiring Guide".data))
    ((lowerStr content).take 500) (by decide) hc (by decide)
  have hfm : firstMatch ENGINE_MAPPINGS
      (lowerStr ("https://support.haltech.com/portal/en/kb/haltech/rb26-wiring-guide/".data)
        ++ ' ' :: lowerStr ("RB26 Wiring Guide".data) ++ ' ' :: (lowerStr content).take 500)
      = some ("technical-library/engines/nissan".data) := by
    rw [show
      lowerStr ("https://support.haltech.com/portal/en/kb/haltech/rb26-wiring-guide/".data)
        ++ ' ' :: lowerStr ("RB26 Wiring Guide".data) ++ ' ' :: (lowerStr content).take 500
      = (lowerStr ("https://support.haltech.com/portal/en/kb/haltech/rb26-wiring-guide/".data)
        ++ ' ' :: lowerStr ("RB26 Wiring Guide".data)) ++ ' ' :: (lowerStr content).take 500
      from by simp]
    exact hfm0
  rw [categorize_article_engine _ _ _ _ hfm]

/-- Witness for C2 at empty content. -/
theorem categorize_rb26_witness :
    (∀ kv ∈ ENGINE_MAPPINGS.take 40,
      containsSub kv.1 ((lowerStr []).take 500) = false) ∧
    (categorize_article
      ("https://support.haltech.com/portal/en/kb/haltech/rb26-wiring-guide/".data)
      ("RB26 Wiring Guide".data) []).1
      = "technical-library/engines/nissan".data :=
  ⟨by decide, categorize_rb26 [] (by decide)⟩

/-- Counterexample to C2 as stated: with content supplying an engine
keyword declared earlier in the table (here `bmw`), the same URL and
title classify to the BMW category, not the Nissan one, so the result
is not content-independent. -/
theorem categorize_rb26_counterexample :
    (categorize_article
      ("https://support.haltech.com/portal/en/kb/haltech/rb26-wiring-guide/".data)
      ("RB26 Wiring Guide".data) ("this article mentions bmw".data)).1
      = "technical-library/engines/bmw".data ∧
    "technical-library/engines/bmw".data ≠ "technical-library/engines/nissan".data :=
  ⟨rfl, by decide⟩

/-! ## C8: selector-cascade rejection and heuristic scoring -/

theorem extract_go_fallthrough (s : Soup) :
    ∀ sels : List (List Char),
    (∀ sel ∈ sels, ∀ c, s.selectOne sel = some c → c.textLen ≤ 100) →
    extract_content_go s sels = extract_content_heuristic s := by
  intro sels
  induction sels with
  | nil => intro _; rfl
  | cons sel rest ih =>
    intro hlow
    simp only [extract_content_go]
    cases hsel : s.selectOne sel with
    | none => exact ih (fun q hq => hlow q (by simp [hq]))
    | some c =>
      have hle : c.textLen ≤ 100 := hlow sel (by simp) c hsel
      show (if c.textLen > 100 then c.rendered else extract_content_go s rest)
        = extract_content_heuristic s
      rw [if_neg (by omega)]
      exact ih (fun q hq => hlow q (by simp [hq]))

theorem insDesc_mem (x y : HeurElem × Nat) (l : List (HeurElem × Nat)) :
    y ∈ insDesc x l ↔ y = x ∨ y ∈ l := by
  induction l with
  | nil => simp [insDesc]
  | cons a t ih =>
    simp only [insDesc]
    split
    · simp
    · simp only [List.mem_cons, ih]
      tauto

theorem sortDesc_mem (y : HeurElem × Nat) (l : List (HeurElem × Nat)) :
    y ∈ sortDesc l ↔ y ∈ l := by
  induction l with
  | nil => simp [sortDesc]
  | cons a t ih =>
    simp only [sortDesc, List.foldr_cons] at *
    rw [insDesc_mem, ih]
    simp

theorem sortDesc_head_max (l : List (HeurElem × Nat)) (h : HeurElem × Nat)
    (t : List (HeurElem × Nat)) (heq : sortDesc l = h :: t) :
    h ∈ l ∧ ∀ p ∈ l, p.2 ≤ h.2 := by
  induction l generalizing h t with
  | nil => simp [sortDesc] at heq
  | cons a l' ih =>
    have hfold : sortDesc (a :: l') = insDesc a (sortDesc l') := by
      simp [sortDesc]
    cases hs : sortDesc l' with
    | nil =>
      have hl' : ∀ p ∈ l', False := by
        intro p hp
        have := (sortDesc_mem p l').mpr hp
        simp [hs] at this
      rw [hfold, hs] at heq
      simp only [insDesc] at heq
      cases heq
      refine ⟨by simp, ?_⟩
      intro p hp
      rcases List.mem_cons.mp hp with hp | hp
      · subst hp; exact Nat.le_refl _
      · exact absurd hp (by intro h; exact hl' p h)
    | cons h' t' =>
      obtain ⟨hmem, hmax⟩ := ih h' t' hs
      rw [hfold, hs] at heq
      simp only [insDesc] at heq
      by_cases hlt : h'.2 < a.2
      · rw [if_pos hlt] at heq
        cases heq
        refine ⟨by simp, ?_⟩
        intro p hp
        rcases List.mem_cons.mp hp with hp | hp
        · subst hp; exact Nat.le_refl _
        · exact Nat.le_of_lt (Nat.lt_of_le_of_lt (hmax p hp) hlt)
      · rw [if_neg hlt] at heq
        cases heq
        refine ⟨List.mem_cons_of_mem _ hmem, ?_⟩
        intro p hp
        rcases List.mem_cons.mp hp with hp | hp
        · subst hp; omega
        · exact hmax p hp

theorem scored_containers_gt (s : Soup) :
    ∀ p ∈ scored_containers s, p.2 > 200 := by
  intro p hp
  simp only [scored_containers, List.mem_filterMap] at hp
  obtain ⟨e, _, he⟩ := hp
  by_cases hgt : e.textLen + e.pCount * 50 > 200
  · simp only [hgt, if_pos] at he
    cases he
    simpa using hgt
  · simp [hgt] at he

/-- C8.  When every selector-cascade candidate has pruned text of at
most 100 characters (e.g. a 40-character candidate), `_extract_content`
never accepts it and falls through to the heuristic scorer; the
heuristic scores containers by `textLength + 50 * paragraphCount`,
returns the rendering of a highest-scoring container with score above
200 when one exists, and the document body otherwise. -/
theorem content_cascade (s : Soup)
    (hlow : ∀ sel ∈ content_selectors, ∀ c, s.selectOne sel = some c → c.textLen ≤ 100) :
    extract_content s = extract_content_heuristic s ∧
    (scored_containers s ≠ [] →
      ∃ e sc, (e, sc) ∈ scored_containers s ∧ sc > 200 ∧
        (∀ p ∈ scored_containers s, p.2 ≤ sc) ∧
        extract_content_heuristic s = e.rendered) ∧
    (scored_containers s = [] →
      extract_content_heuristic s = (s.body).getD []) := by
  refine ⟨extract_go_fallthrough s content_selectors hlow, ?_, ?_⟩
  · intro hne
    cases hs : sortDesc (scored_containers s) with
    | nil =>
      obtain ⟨p, hp⟩ := List.exists_mem_of_ne_nil _ hne
      have := (sortDesc_mem p (scored_containers s)).mpr hp
      simp [hs] at this
    | cons h t =>
      obtain ⟨hmem, hmax⟩ := sortDesc_head_max _ _ _ hs
      refine ⟨h.1, h.2, by simpa using hmem, scored_containers_gt s h hmem, hmax, ?_⟩
      simp only [extract_content_heuristic, hs]
  · intro hempty
    simp only [extract_content_heuristic, hempty, sortDesc, List.foldr_nil]
    cases s.body <;> rfl

/-- Witness for C8: a 40-character candidate on every selector falls
through; one container scoring 600 wins the heuristic. -/
theorem content_cascade_witness :
    (∀ sel ∈ content_selectors, ∀ c,
      (fun (_ : List Char) => some (⟨40, "short".data⟩ : ContentCandidate)) sel = some c →
        c.textLen ≤ 100) ∧
    (extract_content ⟨fun _ => some ⟨40, "short".data⟩, [⟨500, 2, "big".data⟩],
        some ("body".data)⟩ =
      extract_content_heuristic ⟨fun _ => some ⟨40, "short".data⟩, [⟨500, 2, "big".data⟩],
        some ("body".data)⟩ ∧
    (scored_containers ⟨fun _ => some ⟨40, "short".data⟩, [⟨500, 2, "big".data⟩],
        some ("body".data)⟩ ≠ [] →
      ∃ e sc, (e, sc) ∈ scored_containers ⟨fun _ => some ⟨40, "short".data⟩,
          [⟨500, 2, "big".data⟩], some ("body".data)⟩ ∧ sc > 200 ∧
        (∀ p ∈ scored_containers ⟨fun _ => some ⟨40, "short".data⟩,
          [⟨500, 2, "big".data⟩], some ("body".data)⟩, p.2 ≤ sc) ∧
        extract_content_heuristic ⟨fun _ => some ⟨40, "short".data⟩,
          [⟨500, 2, "big".data⟩], some ("body".data)⟩ = e.rendered) ∧
    (scored_containers ⟨fun _ => some ⟨40, "short".data⟩, [⟨500, 2, "big".data⟩],
        some ("body".data)⟩ = [] →
      extract_content_heuristic ⟨fun _ => some ⟨40, "short".data⟩, [⟨500, 2, "big".data⟩],
        some ("body".data)⟩ =
        (Option.some ("body".data)).getD [])) :=
  ⟨fun _ _ c hc => by cases hc; decide,
   content_cascade _ (fun _ _ c hc => by cases hc; decide)⟩

/-! ## C10: shape of generated image filenames -/

theorem isPrefixCh_iff_exists (a b : List Char) :
    isPrefixCh a b = true ↔ ∃ t, b = a ++ t := by
  induction a generalizing b with
  | nil => simp [isPrefixCh]
  | cons c cs ih =>
    cases b with
    | nil =>
      simp only [isPrefixCh, List.cons_append]
      constructor
      · intro h; cases h
      · rintro ⟨t, ht⟩; cases ht
    | cons d ds =>
      simp only [isPrefixCh, Bool.and_eq_true, beq_iff_eq, ih, List.cons_append]
      constructor
      · rintro ⟨rfl, t, rfl⟩; exact ⟨t, rfl⟩
      · rintro ⟨t, ht⟩
        injection ht with h1 h2
        exact ⟨h1.symm, t, h2⟩

theorem isSuffixCh_iff_exists (e l : List Char) :
    isSuffixCh e l = true ↔ ∃ p, l = p ++ e := by
  unfold isSuffixCh
  rw [isPrefixCh_iff_exists]
  constructor
  · rintro ⟨t, ht⟩
    refine ⟨t.reverse, ?_⟩
    have := congrArg List.reverse ht
    simpa using this
  · rintro ⟨p, rfl⟩
    exact ⟨p.reverse, by simp⟩

theorem collapseWs_cons_cons (c d : Char) (l : List Char) :
    collapseWs (c :: d :: l) =
      if isPySpace c then
        (if isPySpace d then collapseWs (d :: l) else ' ' :: collapseWs (d :: l))
      else c :: collapseWs (d :: l) := rfl

theorem collapseWs_single (c : Char) :
    collapseWs [c] = if isPySpace c then [' '] else [c] := rfl

theorem collapseWs_of_no_space (l : List Char) (h : ∀ c ∈ l, isPySpace c = false) :
    collapseWs l = l := by
  induction l with
  | nil => rfl
  | cons c rest ih =>
    have hc : isPySpace c = false := h c (by simp)
    simp only [collapseWs, hc, Bool.false_eq_true, if_false]
    rw [ih (fun d hd => h d (by simp [hd]))]

theorem collapseWs_suffix (ext : List Char) (hne : ext ≠ [])
    (hns : ∀ c ∈ ext, isPySpace c = false) :
    ∀ pre, ∃ q, collapseWs (pre ++ ext) = q ++ ext := by
  intro pre
  induction pre with
  | nil => exact ⟨[], by simp [collapseWs_of_no_space ext hns]⟩
  | cons c pre ih =>
    obtain ⟨q, hq⟩ := ih
    by_cases hc : isPySpace c = true
    · cases hrest : pre ++ ext with
      | nil => exact absurd (List.append_eq_nil.mp hrest).2 hne
      | cons d l =>
        by_cases hd : isPySpace d = true
        · refine ⟨q, ?_⟩
          rw [List.cons_append, hrest, collapseWs_cons_cons, if_pos hc, if_pos hd,
            ← hrest, hq]
        · refine ⟨' ' :: q, ?_⟩
          rw [List.cons_append, hrest, collapseWs_cons_cons, if_pos hc, if_neg hd,
            ← hrest, hq]
          simp
    · refine ⟨c :: q, ?_⟩
      rw [List.cons_append]
      cases hrest : pre ++ ext with
      | nil => exact absurd (List.append_eq_nil.mp hrest).2 hne
      | cons d l =>
        rw [collapseWs_cons_cons, if_neg hc, ← hrest, hq]
        simp

theorem dropWhile_suffix_pres (p : Char → Bool) (ext : List Char) (d : Char)
    (tl : List Char) (hext : ext = d :: tl) (hd : p d = false) :
    ∀ q, ∃ q1, (q ++ ext).dropWhile p = q1 ++ ext := by
  intro q
  induction q with
  | nil =>
    refine ⟨[], ?_⟩
    subst hext
    simp [List.dropWhile_cons, hd]
  | cons c q ih =>
    obtain ⟨q1, h1⟩ := ih
    by_cases hc : p c = true
    · exact ⟨q1, by simp [List.dropWhile_cons, hc, h1]⟩
    · exact ⟨c :: q, by simp [List.dropWhile_cons, hc]⟩

theorem pyStrip_suffix (ext : List Char) (d : Char) (tl : List Char)
    (hext : ext = d :: tl) (hd : isPySpace d = false)
    (lc : Char) (tr : List Char) (hrev : ext.reverse = lc :: tr)
    (hlc : isPySpace lc = false) :
    ∀ q, ∃ q1, pyStrip (q ++ ext) = q1 ++ ext := by
  intro q
  obtain ⟨q1, h1⟩ := dropWhile_suffix_pres isPySpace ext d tl hext hd q
  refine ⟨q1, ?_⟩
  unfold pyStrip
  rw [h1]
  have h2 : (q1 ++ ext).reverse.dropWhile isPySpace = ext.reverse ++ q1.reverse := by
    rw [List.reverse_append, hrev, List.cons_append, List.dropWhile_cons, hlc]
    simp
  rw [h2, ← List.reverse_append]
  simp

theorem mem_collapseWs (c : Char) (l : List Char) (h : c ∈ collapseWs l) :
    c ∈ l ∨ c = ' ' := by
  induction l with
  | nil => simp [collapseWs] at h
  | cons a rest ih =>
    cases hrest : rest with
    | nil =>
      subst hrest
      rw [collapseWs_single] at h
      by_cases ha : isPySpace a = true
      · rw [if_pos ha] at h
        exact Or.inr (by simpa using h)
      · rw [if_neg ha] at h
        exact Or.inl (by simpa using h)
    | cons d l' =>
      subst hrest
      rw [collapseWs_cons_cons] at h
      by_cases ha : isPySpace a = true
      · rw [if_pos ha] at h
        by_cases hd : isPySpace d = true
        · rw [if_pos hd] at h
          rcases ih h with h' | h'
          · exact Or.inl (List.mem_cons_of_mem _ h')
          · exact Or.inr h'
        · rw [if_neg hd] at h
          rcases List.mem_cons.mp h with h' | h'
          · exact Or.inr h'
          · rcases ih h' with h'' | h''
            · exact Or.inl (List.mem_cons_of_mem _ h'')
            · exact Or.inr h''
      · rw [if_neg ha] at h
        rcases List.mem_cons.mp h with h' | h'
        · exact Or.inl (by simp [h'])
        · rcases ih h' with h'' | h''
          · exact Or.inl (List.mem_cons_of_mem _ h'')
          · exact Or.inr h''

theorem mem_pyStrip (c : Char) (l : List Char) (h : c ∈ pyStrip l) : c ∈ l := by
  unfold pyStrip at h
  rw [List.mem_reverse] at h
  have h2 := (List.dropWhile_sublist (l := (l.dropWhile isPySpace).reverse)
    (p := isPySpace)).mem h
  rw [List.mem_reverse] at h2
  exact (List.dropWhile_sublist (l := l) (p := isPySpace)).mem h2

theorem clean_filename_mem (fn : List Char) (c : Char) (h : c ∈ clean_filename fn) :
    c ∉ invalidFileChars := by
  unfold clean_filename at h
  have h1 := mem_pyStrip c _ h
  rcases mem_collapseWs c _ h1 with h2 | h2
  · have h3 : c ∈ fn ∧ c ∉ invalidFileChars := by simpa using List.mem_filter.mp h2
    exact h3.2
  · subst h2; decide

theorem clean_filename_suffix (fn ext : List Char) (pre : List Char)
    (hfn : fn = pre ++ ext)
    (hkeep : ∀ c ∈ ext, invalidFileChars.contains c = false)
    (hns : ∀ c ∈ ext, isPySpace c = false) (hne : ext ≠ []) :
    ∃ q, clean_filename fn = q ++ ext := by
  subst hfn
  unfold clean_filename
  have hfil : (pre ++ ext).filter (fun c => !invalidFileChars.contains c)
      = pre.filter (fun c => !invalidFileChars.contains c) ++ ext := by
    rw [List.filter_append]
    congr 1
    exact List.filter_eq_self.mpr (fun c hc => by rw [hkeep c hc]; rfl)
  rw [hfil]
  obtain ⟨q, hq⟩ := collapseWs_suffix ext hne hns _
  rw [hq]
  obtain ⟨d, tl, hext⟩ : ∃ d tl, ext = d :: tl := by
    cases ext with
    | nil => exact absurd rfl hne
    | cons a b => exact ⟨a, b, rfl⟩
  obtain ⟨lc, tr, hrev⟩ : ∃ lc tr, ext.reverse = lc :: tr := by
    cases hr : ext.reverse with
    | nil => exact absurd (by simpa using congrArg List.reverse hr) hne
    | cons a b => exact ⟨a, b, rfl⟩
  have hd : isPySpace d = false := hns d (by simp [hext])
  have hlcmem : lc ∈ ext := by
    rw [← List.mem_reverse, hrev]; simp
  exact pyStrip_suffix ext d tl hext hd lc tr hrev (hns lc hlcmem) q

theorem get_image_filename_ok_eq (url : List Char) (index : Option Nat)
    (pr : ParseResult) (hpr : urlparseE [] url = .ok pr) :
    get_image_filename url index = .ok (clean_filename
      (if imageExts.any (fun ext => isSuffixCh ext
          (if (posixPathName pr.path).isEmpty || posixPathName pr.path == "/".data
           then "image_".data ++ (Nat.repr (index.getD 0)).data
           else posixPathName pr.path))
       then (if (posixPathName pr.path).isEmpty || posixPathName pr.path == "/".data
             then "image_".data ++ (Nat.repr (index.getD 0)).data
             else posixPathName pr.path)
       else (if (posixPathName pr.path).isEmpty || posixPathName pr.path == "/".data
             then "image_".data ++ (Nat.repr (index.getD 0)).data
             else posixPathName pr.path) ++ ".jpg".data)) := by
  simp only [get_image_filename, hpr]

theorem filename_result_wf (fn1 : List Char) :
    clean_filename (if imageExts.any (fun ext => isSuffixCh ext fn1) then fn1
      else fn1 ++ ".jpg".data) ≠ [] ∧
    (∃ ext ∈ imageExts, isSuffixCh ext (clean_filename
      (if imageExts.any (fun ext => isSuffixCh ext fn1) then fn1
       else fn1 ++ ".jpg".data)) = true) ∧
    (∀ c ∈ clean_filename (if imageExts.any (fun ext => isSuffixCh ext fn1) then fn1
      else fn1 ++ ".jpg".data), c ∉ invalidFileChars) := by
  have hfacts : ∀ ext ∈ imageExts, ext ≠ [] ∧
      (∀ c ∈ ext, invalidFileChars.contains c = false ∧ isPySpace c = false) := by decide
  have key : ∀ ext ∈ imageExts, ∀ pre,
      (if imageExts.any (fun e => isSuffixCh e fn1) then fn1 else fn1 ++ ".jpg".data)
        = pre ++ ext →
      ∃ q, clean_filename (if imageExts.any (fun e => isSuffixCh e fn1) then fn1
        else fn1 ++ ".jpg".data) = q ++ ext := by
    intro ext hmem pre hpre
    exact clean_filename_suffix _ ext pre hpre
      (fun c hc => ((hfacts ext hmem).2 c hc).1)
      (fun c hc => ((hfacts ext hmem).2 c hc).2)
      (hfacts ext hmem).1
  have hdecomp : ∃ ext ∈ imageExts, ∃ pre,
      (if imageExts.any (fun e => isSuffixCh e fn1) then fn1 else fn1 ++ ".jpg".data)
        = pre ++ ext := by
    cases hany : imageExts.any (fun e => isSuffixCh e fn1) with
    | true =>
      obtain ⟨ext, hmem, hsuf⟩ := List.any_eq_true.mp hany
      obtain ⟨pre, hpre⟩ := (isSuffixCh_iff_exists ext fn1).mp hsuf
      exact ⟨ext, hmem, pre, by rw [if_pos rfl]; exact hpre⟩
    | false =>
      refine ⟨".jpg".data, by decide, fn1, ?_⟩
      rw [if_neg (by simp)]
  obtain ⟨ext, hmem, pre, hpre⟩ := hdecomp
  obtain ⟨q, hq⟩ := key ext hmem pre hpre
  refine ⟨?_, ⟨ext, hmem, ?_⟩, ?_⟩
  · rw [hq]
    intro hnil
    exact (hfacts ext hmem).1 (List.append_eq_nil.mp hnil).2
  · rw [hq]
    exact (isSuffixCh_iff_exists ext _).mpr ⟨q, rfl⟩
  · intro c hc
    exact clean_filename_mem _ c hc

/-- C10 (amended).  Whenever `get_image_filename` returns (i.e. the URL
parse does not raise), the filename is non-empty, ends with one of the
recognised image extensions, and contains none of the filesystem-invalid
characters; `.jpg` is appended when no recognised extension is present,
and invalid characters are removed afterwards. -/
theorem image_filename_wf (url : List Char) (index : Option Nat) (f : List Char)
    (h : get_image_filename url index = .ok f) :
    f ≠ [] ∧ (∃ ext ∈ imageExts, isSuffixCh ext f = true) ∧
    (∀ c ∈ f, c ∉ invalidFileChars) := by
  cases hpr : urlparseE [] url with
  | error e =>
    rw [get_image_filename, hpr] at h
    cases h
  | ok pr =>
    rw [get_image_filename_ok_eq url index pr hpr] at h
    injection h with h
    rw [← h]
    exact filename_result_wf _

/-- Witness for C10 on a URL that parses. -/
theorem image_filename_wf_witness :
    get_image_filename ("https://support.haltech.com/img/diagram.png".data) none
      = .ok ("diagram.png".data) ∧
    ("diagram.png".data ≠ [] ∧
     (∃ ext ∈ imageExts, isSuffixCh ext ("diagram.png".data) = true) ∧
     (∀ c ∈ ("diagram.png".data), c ∉ invalidFileChars)) :=
  ⟨rfl, image_filename_wf ("https://support.haltech.com/img/diagram.png".data) none
    ("diagram.png".data) rfl⟩

/-- Counterexample to C10 as stated: `get_image_filename` does not
return a filename for every URL string; an unbalanced IPv6 bracket in
the authority makes `urlparse` raise `ValueError`, which propagates. -/
theorem image_filename_counterexample :
    get_image_filename ("http://[x/a.png".data) (some 1) = .error () := rfl

/-! ## C4: scope filtering

The `path` component `urlsplit` produces is a contiguous slice
(drop-then-take) of the cleaned URL; this carries substring containment
from the path up to the whole URL string. -/

theorem dropWhileCh_eq_drop (p : Char → Bool) (l : List Char) :
    l.dropWhile p = l.drop (l.takeWhile p).length := by
  induction l with
  | nil => rfl
  | cons c rest ih =>
    by_cases hc : p c = true
    · simp [List.dropWhile_cons, List.takeWhile_cons, hc, ih]
    · simp [List.dropWhile_cons, List.takeWhile_cons, hc]

theorem takeWhileCh_eq_take (p : Char → Bool) (l : List Char) :
    l.takeWhile p = l.take (l.takeWhile p).length := by
  induction l with
  | nil => rfl
  | cons c rest ih =>
    by_cases hc : p c = true
    · simp only [List.takeWhile_cons, hc, if_true, List.length_cons, List.take_succ_cons]
      rw [← ih]
    · simp [List.takeWhile_cons, hc]

theorem slice_refl (u : List Char) : ∃ i j, u = (u.drop i).take j :=
  ⟨0, u.length, by simp⟩

theorem slice_take (u x : List Char) (k : Nat) (h : ∃ i j, x = (u.drop i).take j) :
    ∃ i j, x.take k = (u.drop i).take j := by
  obtain ⟨i, j, rfl⟩ := h
  exact ⟨i, min k j, by rw [List.take_take]⟩

theorem slice_drop (u x : List Char) (k : Nat) (h : ∃ i j, x = (u.drop i).take j) :
    ∃ i j, x.drop k = (u.drop i).take j := by
  obtain ⟨i, j, rfl⟩ := h
  refine ⟨i + k, j - k, ?_⟩
  rw [List.drop_take, List.drop_drop]

theorem slice_takeWhile (p : Char → Bool) (u x : List Char)
    (h : ∃ i j, x = (u.drop i).take j) :
    ∃ i j, x.takeWhile p = (u.drop i).take j := by
  rw [takeWhileCh_eq_take]
  exact slice_take u x _ h

theorem slice_dropWhile (p : Char → Bool) (u x : List Char)
    (h : ∃ i j, x = (u.drop i).take j) :
    ∃ i j, x.dropWhile p = (u.drop i).take j := by
  rw [dropWhileCh_eq_drop]
  exact slice_drop u x _ h

theorem slice_of_drop (u : List Char) (k : Nat) : ∃ i j, u.drop k = (u.drop i).take j :=
  ⟨k, (u.drop k).length, by rw [List.take_length]⟩

theorem splitSchemeD_snd (dflt u : List Char) : ∃ i, (splitSchemeD dflt u).2 = u.drop i := by
  unfold splitSchemeD
  cases hf : u.findIdx? (fun c => c == ':') with
  | none => exact ⟨0, by simp⟩
  | some i =>
    dsimp only
    by_cases hcond : 0 < i ∧ (u.headD ' ').toNat ≤ 127 ∧ (u.headD ' ').isAlpha = true ∧
        ((List.take i u).all fun c => schemeChars.contains c) = true
    · exact ⟨i + 1, by rw [if_pos hcond]⟩
    · exact ⟨0, by rw [if_neg hcond]; simp⟩

theorem urlsplitE_path_slice (dflt u : List Char) (r : SplitResult)
    (h : urlsplitE dflt u = .ok r) :
    ∃ i j, r.path = ((u.filter isUrlCleanCh).drop i).take j := by
  simp only [urlsplitE] at h
  obtain ⟨i0, hi0⟩ := splitSchemeD_snd dflt (u.filter isUrlCleanCh)
  have hu1 : ∃ i j, (splitSchemeD dflt (u.filter isUrlCleanCh)).2
      = ((u.filter isUrlCleanCh).drop i).take j := by
    rw [hi0]; exact slice_of_drop _ _
  set u1 := (splitSchemeD dflt (u.filter isUrlCleanCh)).2 with hu1def
  by_cases hc0 : u1.take 2 = ['/', '/']
  · rw [if_pos hc0] at h
    have hu2 : ∃ i j, (u1.drop 2).dropWhile (fun c => !isNetlocDelim c)
        = ((u.filter isUrlCleanCh).drop i).take j :=
      slice_dropWhile _ _ _ (slice_drop _ _ _ hu1)
    split at h
    · cases h
    · injection h with h
      subst h
      by_cases hc1 : ((u1.drop 2).dropWhile (fun c => !isNetlocDelim c)).contains '#' = true
      · rw [if_pos hc1]
        by_cases hc2 : (((u1.drop 2).dropWhile (fun c => !isNetlocDelim c)).takeWhile
            (fun c => c != '#')).contains '?' = true
        · rw [if_pos hc2]
          exact slice_takeWhile _ _ _ (slice_takeWhile _ _ _ hu2)
        · rw [if_neg hc2]
          exact slice_takeWhile _ _ _ hu2
      · rw [if_neg hc1]
        by_cases hc2 : ((u1.drop 2).dropWhile (fun c => !isNetlocDelim c)).contains '?' = true
        · rw [if_pos hc2]
          exact slice_takeWhile _ _ _ hu2
        · rw [if_neg hc2]
          exact hu2
  · rw [if_neg hc0] at h
    split at h
    · cases h
    · injection h with h
      subst h
      by_cases hc1 : u1.contains '#' = true
      · rw [if_pos hc1]
        by_cases hc2 : (u1.takeWhile (fun c => c != '#')).contains '?' = true
        · rw [if_pos hc2]
          exact slice_takeWhile _ _ _ (slice_takeWhile _ _ _ hu1)
        · rw [if_neg hc2]
          exact slice_takeWhile _ _ _ hu1
      · rw [if_neg hc1]
        by_cases hc2 : u1.contains '?' = true
        · rw [if_pos hc2]
          exact slice_takeWhile _ _ _ hu1
        · rw [if_neg hc2]
          exact hu1

theorem urlparseE_path_slice (u : List Char) (pr : ParseResult)
    (h : urlparseE [] u = .ok pr) :
    ∃ i j, pr.path = ((u.filter isUrlCleanCh).drop i).take j := by
  unfold urlparseE at h
  cases hs : urlsplitE [] u with
  | error e => rw [hs] at h; cases h
  | ok r =>
    rw [hs] at h
    obtain ⟨i, j, hij⟩ := urlsplitE_path_slice [] u r hs
    simp only at h
    split at h
    · injection h with h
      subst h
      simp only
      unfold splitParams
      by_cases hsl : r.path.contains '/' = true
      · rw [if_pos hsl]
        cases hfi : findIdxFromCh ';' ((lastIdxOfCh '/' r.path).getD 0) r.path with
        | some k =>
          dsimp only
          exact slice_take _ _ _ ⟨i, j, hij⟩
        | none =>
          dsimp only
          exact ⟨i, j, hij⟩
      · rw [if_neg hsl]
        cases hfi : r.path.findIdx? (fun c => c == ';') with
        | some k =>
          dsimp only
          exact slice_take _ _ _ ⟨i, j, hij⟩
        | none =>
          dsimp only
          exact ⟨i, j, hij⟩
    · injection h with h
      subst h
      exact ⟨i, j, hij⟩

theorem containsSub_of_slice (n x u : List Char) (h : containsSub n x = true)
    (hs : ∃ i j, x = (u.drop i).take j) : containsSub n u = true := by
  obtain ⟨i, j, rfl⟩ := hs
  have h1 : containsSub n (u.drop i) = true := by
    rw [← List.take_append_drop j (u.drop i)]
    exact containsSub_append_left _ _ _ h
  rw [← List.take_append_drop i u]
  exact containsSub_append_right _ _ _ h1

/-- C4 (amended).  `is_valid_url` returns `False` for every URL whose
host (netloc) does not start with `support.haltech.com`, and for every
URL (without tab/CR/LF characters, which `urlsplit` strips) whose path
contains a configured exclusion substring case-insensitively. -/
theorem is_valid_url_rejections :
    (∀ url pr, urlparseE [] url = .ok pr →
      isPrefixCh ("support.haltech.com".data) pr.netloc = false →
      is_valid_url url = .ok false) ∧
    (∀ url pr pat, urlparseE [] url = .ok pr → pat ∈ EXCLUDE_PATTERNS →
      (∀ c ∈ url, isUrlCleanCh c = true) →
      containsSub pat (lowerStr pr.path) = true →
      is_valid_url url = .ok false) := by
  constructor
  · intro url pr hpr hpref
    by_cases hemp : url.isEmpty = true
    · simp [is_valid_url, hemp]
    · simp only [is_valid_url, hemp, Bool.false_eq_true, if_false, hpr]
      rw [if_pos (by rw [hpref]; rfl)]
  · intro url pr pat hpr hpat hclean hcont
    by_cases hemp : url.isEmpty = true
    · simp [is_valid_url, hemp]
    · simp only [is_valid_url, hemp, Bool.false_eq_true, if_false, hpr]
      by_cases hpref : isPrefixCh ("support.haltech.com".data) pr.netloc = true
      · rw [if_neg (by rw [hpref]; simp)]
        rw [if_pos ?_]
        refine List.any_eq_true.mpr ⟨pat, hpat, ?_⟩
        obtain ⟨i, j, hij⟩ := urlparseE_path_slice url pr hpr
        have hfil : url.filter isUrlCleanCh = url := List.filter_eq_self.mpr hclean
        rw [hfil] at hij
        have hlow : lowerStr pr.path = ((lowerStr url).drop i).take j := by
          rw [hij]
          simp [lowerStr, List.map_take, List.map_drop]
        exact containsSub_of_slice pat _ _ (by rw [← hlow]; exact hcont) ⟨i, j, rfl⟩
      · rw [if_pos (by simp [Bool.eq_false_iff.mpr hpref])]

/-- Witness for C4: a host not starting with the target domain is
rejected, and a path containing `login` is rejected. -/
theorem is_valid_url_rejections_witness :
    is_valid_url ("https://evil.com/x".data) = .ok false ∧
    is_valid_url ("https://support.haltech.com/login".data) = .ok false :=
  ⟨is_valid_url_rejections.1 ("https://evil.com/x".data)
    ⟨"https".data, "evil.com".data, "/x".data, [], [], []⟩ rfl (by decide),
   is_valid_url_rejections.2 ("https://support.haltech.com/login".data)
    ⟨"https".data, "support.haltech.com".data, "/login".data, [], [], []⟩
    ("login".data) rfl (by decide) (by decide) (by decide)⟩

/-- Counterexample to C4 as stated: the host check is
`netloc.startswith('support.haltech.com')`, so the distinct host
`support.haltech.com.evil.com` passes and the URL is accepted. -/
theorem is_valid_url_counterexample :
    (urlparseE [] ("https://support.haltech.com.evil.com/page".data)).map
      ParseResult.netloc = .ok ("support.haltech.com.evil.com".data) ∧
    ("support.haltech.com.evil.com".data ≠ "support.haltech.com".data) ∧
    is_valid_url ("https://support.haltech.com.evil.com/page".data) = .ok true :=
  ⟨rfl, by decide, rfl⟩

/-! ## C3: normalization and idempotence

`normalize_url` with no base defragments via `urlsplit`/`urlunsplit` and
then strips one trailing slash.  The development below characterises the
split components, shows `urlsplit` re-parses a rebuilt URL to the same
components, and derives a conditional idempotence theorem; the
counterexample shows idempotence fails in general. -/

theorem containsCh_true_iff (l : List Char) (c : Char) : l.contains c = true ↔ c ∈ l := by
  simp

theorem containsCh_false_iff (l : List Char) (c : Char) : l.contains c = false ↔ c ∉ l := by
  simp

theorem findIdxq_append_first (f : Char → Bool) (a : List Char) (d : Char) (b : List Char)
    (ha : ∀ c ∈ a, f c = false) (hd : f d = true) :
    ∀ i, List.findIdx? f (a ++ d :: b) i = some (i + a.length) := by
  induction a with
  | nil =>
    intro i
    rw [List.nil_append, List.findIdx?_cons, if_pos hd]
    simp
  | cons c a' ih =>
    intro i
    rw [List.cons_append, List.findIdx?_cons, if_neg (by simp [ha c (by simp)])]
    rw [ih (fun x hx => ha x (by simp [hx])) (i + 1)]
    simp only [List.length_cons]
    congr 1
    omega

theorem map_id_of (f : Char → Char) (l : List Char) (h : ∀ c ∈ l, f c = c) :
    l.map f = l := by
  induction l with
  | nil => rfl
  | cons c rest ih =>
    simp only [List.map_cons, h c (by simp)]
    rw [ih (fun x hx => h x (by simp [hx]))]

theorem takeWhile_append_all (f : Char → Bool) (a b : List Char)
    (h : ∀ c ∈ a, f c = true) : (a ++ b).takeWhile f = a ++ b.takeWhile f := by
  induction a with
  | nil => simp
  | cons c a' ih =>
    simp only [List.cons_append, List.takeWhile_cons, h c (by simp), if_true]
    rw [ih (fun x hx => h x (by simp [hx]))]

theorem dropWhile_append_all (f : Char → Bool) (a b : List Char)
    (h : ∀ c ∈ a, f c = true) : (a ++ b).dropWhile f = b.dropWhile f := by
  induction a with
  | nil => simp
  | cons c a' ih =>
    simp only [List.cons_append, List.dropWhile_cons, h c (by simp), if_true]
    exact ih (fun x hx => h x (by simp [hx]))

theorem dropWhile_head_false (f : Char → Bool) (l : List Char) (d : Char) (t : List Char)
    (h : l.dropWhile f = d :: t) : f d = false := by
  induction l with
  | nil => cases h
  | cons c l' ih =>
    by_cases hc : f c = true
    · rw [List.dropWhile_cons, if_pos hc] at h
      exact ih h
    · rw [List.dropWhile_cons, if_neg hc] at h
      injection h with h1 _
      subst h1
      simpa using hc

theorem dropLast_append_ne (a b : List Char) (hb : b ≠ []) :
    (a ++ b).dropLast = a ++ b.dropLast := by
  cases b with
  | nil => exact absurd rfl hb
  | cons x xs => exact List.dropLast_append_cons

theorem schemeChars_lower_facts :
    ∀ c ∈ schemeChars, Char.toLower c ∈ schemeChars ∧
      (Char.toLower c).toLower = Char.toLower c ∧
      isUrlCleanCh (Char.toLower c) = true ∧ Char.toLower c ≠ ':' := by decide

theorem schemeChars_self_facts :
    ∀ c ∈ schemeChars, isUrlCleanCh c = true ∧ c ≠ ':' := by decide

theorem schemeChars_alpha_lower :
    ∀ c ∈ schemeChars, c.isAlpha = true → c.toNat ≤ 127 →
      ((Char.toLower c).isAlpha = true ∧ (Char.toLower c).toNat ≤ 127) := by decide

theorem splitSchemeD_spec (dflt u : List Char) :
    splitSchemeD dflt u = (dflt, u) ∨
    ∃ i, 0 < i ∧ (∀ c ∈ u.take i, c ∈ schemeChars) ∧
      (u.headD ' ').isAlpha = true ∧ (u.headD ' ').toNat ≤ 127 ∧
      splitSchemeD dflt u = ((u.take i).map Char.toLower, u.drop (i + 1)) := by
  unfold splitSchemeD
  cases hf : u.findIdx? (fun c => c == ':') with
  | none => exact Or.inl rfl
  | some i =>
    dsimp only
    by_cases hcond : 0 < i ∧ (u.headD ' ').toNat ≤ 127 ∧ (u.headD ' ').isAlpha = true ∧
        ((List.take i u).all fun c => schemeChars.contains c) = true
    · refine Or.inr ⟨i, hcond.1, ?_, hcond.2.2.1, hcond.2.1, by rw [if_pos hcond]⟩
      intro c hc
      have := List.all_eq_true.mp hcond.2.2.2 c hc
      exact (containsCh_true_iff _ _).mp (by simpa using this)
    · exact Or.inl (by rw [if_neg hcond])

theorem splitSchemeD_of_not_alpha (dflt u : List Char)
    (h : (u.headD ' ').isAlpha = false) : splitSchemeD dflt u = (dflt, u) := by
  unfold splitSchemeD
  cases hf : u.findIdx? (fun c => c == ':') with
  | none => rfl
  | some i =>
    dsimp only
    rw [if_neg ?_]
    intro hcond
    rw [h] at hcond
    exact absurd hcond.2.2.1 (by simp)

theorem splitSchemeD_rebuild (s rest : List Char)
    (hschars : ∀ c ∈ s, c ∈ schemeChars)
    (hlow : ∀ c ∈ s, c.toLower = c)
    (hd : Char) (tl : List Char) (hshape : s = hd :: tl)
    (halpha : hd.isAlpha = true) (hascii : hd.toNat ≤ 127) :
    splitSchemeD [] (s ++ ':' :: rest) = (s, rest) := by
  have hfind : (s ++ ':' :: rest).findIdx? (fun c => c == ':') = some s.length := by
    have := findIdxq_append_first (fun c => c == ':') s ':' rest
      (fun c hc => by
        have := (schemeChars_self_facts c (hschars c hc)).2
        simp [this])
      (by simp) 0
    simpa using this
  unfold splitSchemeD
  rw [hfind]
  dsimp only
  have hhead : (s ++ ':' :: rest).headD ' ' = hd := by rw [hshape]; rfl
  have htake : (s ++ ':' :: rest).take s.length = s := List.take_left _ _
  rw [if_pos ?hc]
  case hc =>
    refine ⟨by rw [hshape]; simp, by rw [hhead]; exact hascii, by rw [hhead]; exact halpha, ?_⟩
    rw [htake]
    exact List.all_eq_true.mpr (fun c hc => by
      simpa using (containsCh_true_iff _ _).mpr (hschars c hc))
  rw [htake, map_id_of _ _ hlow]
  have hdrop : (s ++ ':' :: rest).drop (s.length + 1) = rest := by
    have h1 : s ++ ':' :: rest = (s ++ [':']) ++ rest := by simp
    have h2 : s.length + 1 = (s ++ [':']).length := by simp
    rw [h1, h2]
    exact List.drop_left _ _
  rw [hdrop]

theorem bool_br_eq (a b : Bool) (h : (a && !b || b && !a) = false) : a = b := by
  cases a <;> cases b <;> simp_all

theorem netlocDelim_cases (d : Char) (h : isNetlocDelim d = true) :
    d = '/' ∨ d = '?' ∨ d = '#' := by
  simp [isNetlocDelim] at h
  rcases h with (h | h) | h
  · exact Or.inl h
  · exact Or.inr (Or.inl h)
  · exact Or.inr (Or.inr h)

theorem pathOf_u3_facts (u3 : List Char) :
    ∀ fr qu : List Char × List Char,
    fr = (if u3.contains '#' then
            (u3.takeWhile (fun c => c != '#'), (u3.dropWhile (fun c => c != '#')).drop 1)
          else (u3, [])) →
    qu = (if fr.1.contains '?' then
            (fr.1.takeWhile (fun c => c != '?'), (fr.1.dropWhile (fun c => c != '?')).drop 1)
          else (fr.1, [])) →
    (∀ c ∈ qu.1, c ∈ u3 ∧ c ≠ '#' ∧ c ≠ '?') ∧
    (∀ c ∈ qu.2, c ∈ u3 ∧ c ≠ '#') ∧
    (u3 = [] → qu.1 = []) ∧
    (∀ d t, u3 = d :: t → isNetlocDelim d = true →
      (qu.1 = [] ∨ ∃ t', qu.1 = '/' :: t')) := by
  intro fr qu hfr hqu
  have hFfacts : ∀ c ∈ fr.1, c ∈ u3 ∧ c ≠ '#' := by
    by_cases hc1 : u3.contains '#' = true
    · rw [hfr, if_pos hc1]
      intro c hc
      refine ⟨(List.takeWhile_sublist _).mem hc, ?_⟩
      have := List.mem_takeWhile_imp hc
      simpa using this
    · rw [hfr, if_neg hc1]
      intro c hc
      refine ⟨hc, ?_⟩
      intro hceq
      subst hceq
      exact absurd ((containsCh_true_iff _ _).mpr hc) (by simpa using hc1)
  refine ⟨?_, ?_, ?_, ?_⟩
  · by_cases hc2 : fr.1.contains '?' = true
    · rw [hqu, if_pos hc2]
      intro c hc
      have hmemF := (List.takeWhile_sublist _).mem hc
      have hne := List.mem_takeWhile_imp hc
      exact ⟨(hFfacts c hmemF).1, (hFfacts c hmemF).2, by simpa using hne⟩
    · rw [hqu, if_neg hc2]
      intro c hc
      refine ⟨(hFfacts c hc).1, (hFfacts c hc).2, ?_⟩
      intro hceq
      subst hceq
      exact absurd ((containsCh_true_iff _ _).mpr hc) (by simpa using hc2)
  · by_cases hc2 : fr.1.contains '?' = true
    · rw [hqu, if_pos hc2]
      intro c hc
      have h1 : c ∈ fr.1.dropWhile (fun c => c != '?') :=
        (List.drop_sublist _ _).mem hc
      have h2 : c ∈ fr.1 := (List.dropWhile_sublist _).mem h1
      exact ⟨(hFfacts c h2).1, (hFfacts c h2).2⟩
    · rw [hqu, if_neg hc2]
      intro c hc
      cases hc
  · intro hu3
    subst hu3
    have hfr1 : fr.1 = [] := by
      rw [hfr, if_neg (by simp)]
    by_cases hc2 : fr.1.contains '?' = true
    · rw [hfr1] at hc2; simp at hc2
    · rw [hqu, if_neg hc2, hfr1]
  · intro d t hu3 hdelim
    rcases netlocDelim_cases d hdelim with hd | hd | hd
    · -- u3 starts with '/': the path keeps that head
      subst hd
      have hfr1 : ∃ t1, fr.1 = '/' :: t1 := by
        by_cases hc1 : u3.contains '#' = true
        · rw [hfr, if_pos hc1, hu3]
          exact ⟨_, by rw [List.takeWhile_cons, if_pos (by simp)]⟩
        · rw [hfr, if_neg hc1]
          exact ⟨t, hu3⟩
      obtain ⟨t1, hfr1⟩ := hfr1
      by_cases hc2 : fr.1.contains '?' = true
      · rw [hqu, if_pos hc2, hfr1]
        exact Or.inr ⟨_, by rw [List.takeWhile_cons, if_pos (by simp)]⟩
      · rw [hqu, if_neg hc2]
        exact Or.inr ⟨t1, hfr1⟩
    · -- u3 starts with '?': the query split empties the path
      subst hd
      have hfr1 : ∃ t1, fr.1 = '?' :: t1 := by
        by_cases hc1 : u3.contains '#' = true
        · rw [hfr, if_pos hc1, hu3]
          exact ⟨_, by rw [List.takeWhile_cons, if_pos (by simp)]⟩
        · rw [hfr, if_neg hc1]
          exact ⟨t, hu3⟩
      obtain ⟨t1, hfr1⟩ := hfr1
      by_cases hc2 : fr.1.contains '?' = true
      · rw [hqu, if_pos hc2, hfr1]
        refine Or.inl ?_
        rw [List.takeWhile_cons, if_neg (by simp)]
      · rw [hfr1] at hc2
        simp at hc2
    · -- u3 starts with '#': the fragment split empties everything
      subst hd
      by_cases hc1 : u3.contains '#' = true
      · have hfr1 : fr.1 = [] := by
          rw [hfr, if_pos hc1, hu3, List.takeWhile_cons, if_neg (by simp)]
        by_cases hc2 : fr.1.contains '?' = true
        · rw [hfr1] at hc2; simp at hc2
        · rw [hqu, if_neg hc2, hfr1]
          exact Or.inl rfl
      · rw [hu3] at hc1
        simp at hc1

theorem urlsplitE_wf (u : List Char) (r : SplitResult)
    (h : urlsplitE [] u = .ok r) :
    (∀ c ∈ r.scheme, c ∈ schemeChars ∧ c.toLower = c) ∧
    (r.scheme = [] ∨ ∃ hd tl, r.scheme = hd :: tl ∧ hd.isAlpha = true ∧ hd.toNat ≤ 127) ∧
    (∀ c ∈ r.netloc, isNetlocDelim c = false ∧ c ∈ u.filter isUrlCleanCh) ∧
    (r.netloc.contains '[' = r.netloc.contains ']') ∧
    (r.netloc ≠ [] → (r.path = [] ∨ ∃ t, r.path = '/' :: t)) ∧
    (∀ c ∈ r.path, c ∈ u.filter isUrlCleanCh ∧ c ≠ '#' ∧ c ≠ '?') ∧
    (∀ c ∈ r.query, c ∈ u.filter isUrlCleanCh ∧ c ≠ '#') := by
  simp only [urlsplitE] at h
  have hsub_u1 : List.Sublist (splitSchemeD [] (u.filter isUrlCleanCh)).2
      (u.filter isUrlCleanCh) := by
    obtain ⟨i, hi⟩ := splitSchemeD_snd [] (u.filter isUrlCleanCh)
    rw [hi]
    exact List.drop_sublist _ _
  have hscheme1 : ∀ c ∈ (splitSchemeD [] (u.filter isUrlCleanCh)).1,
      c ∈ schemeChars ∧ c.toLower = c := by
    rcases splitSchemeD_spec [] (u.filter isUrlCleanCh) with hsp | ⟨i, _, hall, _, _, hsp⟩
    · rw [hsp]; intro c hc; cases hc
    · rw [hsp]
      intro c hc
      obtain ⟨c', hc', rfl⟩ := List.mem_map.mp hc
      have := schemeChars_lower_facts c' (hall c' hc')
      exact ⟨this.1, this.2.1⟩
  have hscheme2 : (splitSchemeD [] (u.filter isUrlCleanCh)).1 = [] ∨
      ∃ hd tl, (splitSchemeD [] (u.filter isUrlCleanCh)).1 = hd :: tl ∧
        hd.isAlpha = true ∧ hd.toNat ≤ 127 := by
    rcases splitSchemeD_spec [] (u.filter isUrlCleanCh) with hsp | ⟨i, hipos, hall, halpha, hascii, hsp⟩
    · rw [hsp]; exact Or.inl rfl
    · rw [hsp]
      cases hw : (u.filter isUrlCleanCh).take i with
      | nil => exact Or.inl rfl
      | cons c0 t0 =>
        have hc0mem : c0 ∈ (u.filter isUrlCleanCh).take i := by rw [hw]; simp
        have hc0head : (u.filter isUrlCleanCh).headD ' ' = c0 := by
          cases hu : u.filter isUrlCleanCh with
          | nil => rw [hu] at hw; simp at hw
          | cons a rest =>
            rw [hu] at hw
            cases i with
            | zero => simp at hipos
            | succ i' =>
              rw [List.take_succ_cons] at hw
              injection hw with h1 _
        refine Or.inr ⟨c0.toLower, t0.map Char.toLower, rfl, ?_, ?_⟩
        · exact (schemeChars_alpha_lower c0 (hall c0 hc0mem)
            (hc0head ▸ halpha) (hc0head ▸ hascii)).1
        · exact (schemeChars_alpha_lower c0 (hall c0 hc0mem)
            (hc0head ▸ halpha) (hc0head ▸ hascii)).2
  by_cases hc0 : (splitSchemeD [] (u.filter isUrlCleanCh)).2.take 2 = ['/', '/']
  · rw [if_pos hc0] at h
    split at h
    · cases h
    next hbr =>
      injection h with h
      subst h
      dsimp only
      have hu3sub : List.Sublist
          (((splitSchemeD [] (u.filter isUrlCleanCh)).2.drop 2).dropWhile
            (fun c => !isNetlocDelim c))
          (u.filter isUrlCleanCh) :=
        ((List.dropWhile_sublist _).trans (List.drop_sublist _ _)).trans hsub_u1
      obtain ⟨hp1, hp2, hp3, hp4⟩ := pathOf_u3_facts
        (((splitSchemeD [] (u.filter isUrlCleanCh)).2.drop 2).dropWhile
          (fun c => !isNetlocDelim c)) _ _ rfl rfl
      refine ⟨hscheme1, hscheme2, ?_, ?_, ?_, ?_, ?_⟩
      · intro c hc
        have hpred := List.mem_takeWhile_imp hc
        have hmem : c ∈ (u.filter isUrlCleanCh) :=
          (((List.takeWhile_sublist _).trans (List.drop_sublist _ _)).trans hsub_u1).mem hc
        exact ⟨by simpa using hpred, hmem⟩
      · exact bool_br_eq _ _ (Bool.eq_false_iff.mpr hbr)
      · intro hne
        rcases (show ∀ l : List Char, l = [] ∨ ∃ d t, l = d :: t from fun l => by
            cases l with
            | nil => exact Or.inl rfl
            | cons d t => exact Or.inr ⟨d, t, rfl⟩)
          (((splitSchemeD [] (u.filter isUrlCleanCh)).2.drop 2).dropWhile
            (fun c => !isNetlocDelim c)) with hnil | ⟨d, t, hcons⟩
        · exact Or.inl (hp3 hnil)
        · have hdel : isNetlocDelim d = true := by
            have := dropWhile_head_false _ _ _ _ hcons
            simpa using this
          exact hp4 d t hcons hdel
      · intro c hc
        have := hp1 c hc
        exact ⟨hu3sub.mem this.1, this.2.1, this.2.2⟩
      · intro c hc
        have := hp2 c hc
        exact ⟨hu3sub.mem this.1, this.2⟩
  · rw [if_neg hc0] at h
    split at h
    · cases h
    next hbr =>
      injection h with h
      subst h
      dsimp only
      obtain ⟨hp1, hp2, hp3, hp4⟩ := pathOf_u3_facts
        (splitSchemeD [] (u.filter isUrlCleanCh)).2 _ _ rfl rfl
      refine ⟨hscheme1, hscheme2, ?_, rfl, ?_, ?_, ?_⟩
      · intro c hc; cases hc
      · intro hne; exact absurd rfl hne
      · intro c hc
        have := hp1 c hc
        exact ⟨hsub_u1.mem this.1, this.2.1, this.2.2⟩
      · intro c hc
        have := hp2 c hc
        exact ⟨hsub_u1.mem this.1, this.2⟩

theorem bool_br_eq_false (a b : Bool) (h : a = b) : (a && !b || b && !a) = false := by
  subst h
  cases a <;> rfl

/-- Re-parsing a URL rebuilt from well-formed components with a
non-empty netloc and no fragment returns exactly those components. -/
theorem urlsplitE_rebuild (s n p q : List Char)
    (hs_chars : ∀ c ∈ s, c ∈ schemeChars)
    (hs_low : ∀ c ∈ s, c.toLower = c)
    (hs_head : s = [] ∨ ∃ hd tl, s = hd :: tl ∧ hd.isAlpha = true ∧ hd.toNat ≤ 127)
    (hn_ne : n ≠ [])
    (hn : ∀ c ∈ n, isNetlocDelim c = false ∧ isUrlCleanCh c = true)
    (hn_br : n.contains '[' = n.contains ']')
    (hp_shape : p = [] ∨ ∃ t, p = '/' :: t)
    (hp : ∀ c ∈ p, isUrlCleanCh c = true ∧ c ≠ '#' ∧ c ≠ '?')
    (hq : ∀ c ∈ q, isUrlCleanCh c = true ∧ c ≠ '#') :
    urlsplitE [] (urlunsplit ⟨s, n, p, q, []⟩) = .ok ⟨s, n, p, q, []⟩ := by
  have hnT : n.isEmpty = false := by
    cases n with
    | nil => exact absurd rfl hn_ne
    | cons a b => rfl
  -- the query part of the rebuilt string
  have hqpart : ∃ qpart, (if !q.isEmpty then ('/' :: '/' :: (n ++ p)) ++ '?' :: q
      else '/' :: '/' :: (n ++ p)) = '/' :: '/' :: (n ++ (p ++ qpart)) ∧
      (qpart = [] ∧ q = [] ∨ qpart = '?' :: q) := by
    cases hq0 : q with
    | nil => exact ⟨[], by simp, Or.inl ⟨rfl, rfl⟩⟩
    | cons x xs =>
      refine ⟨'?' :: q, by rw [hq0]; simp, Or.inr (by rw [hq0])⟩
  obtain ⟨qpart, hqeq, hqcase⟩ := hqpart
  -- the netloc split step
  have htail_head : p ++ qpart = [] ∨
      ∃ d t, p ++ qpart = d :: t ∧ isNetlocDelim d = true := by
    rcases hp_shape with hp0 | ⟨pt, hp0⟩
    · subst hp0
      rcases hqcase with ⟨hq1, _⟩ | hq1
      · subst hq1; exact Or.inl rfl
      · subst hq1; exact Or.inr ⟨'?', q, rfl, by decide⟩
    · subst hp0
      exact Or.inr ⟨'/', pt ++ qpart, rfl, by decide⟩
  have htw : (n ++ (p ++ qpart)).takeWhile (fun c => !isNetlocDelim c) = n := by
    rw [takeWhile_append_all _ _ _ (fun c hc => by simp [(hn c hc).1])]
    rcases htail_head with h0 | ⟨d, t, h0, hdel⟩
    · rw [h0]; simp
    · rw [h0, List.takeWhile_cons, if_neg (by simp [hdel])]
      simp
  have hdw : (n ++ (p ++ qpart)).dropWhile (fun c => !isNetlocDelim c) = p ++ qpart := by
    rw [dropWhile_append_all _ _ _ (fun c hc => by simp [(hn c hc).1])]
    rcases htail_head with h0 | ⟨d, t, h0, hdel⟩
    · rw [h0]; rfl
    · rw [h0, List.dropWhile_cons, if_neg (by simp [hdel])]
  -- no fragment markers anywhere in the path-query tail
  have htail_chars : ∀ c ∈ p ++ qpart, c ≠ '#' := by
    intro c hc
    rcases List.mem_append.mp hc with hc | hc
    · exact (hp c hc).2.1
    · rcases hqcase with ⟨hq1, _⟩ | hq1
      · rw [hq1] at hc; cases hc
      · rw [hq1] at hc
        rcases List.mem_cons.mp hc with hc | hc
        · subst hc; decide
        · exact (hq c hc).2
  have hnofrag : (p ++ qpart).contains '#' = false := by
    rw [containsCh_false_iff]
    intro hmem
    exact htail_chars '#' hmem rfl
  -- the query split of the tail recovers (p, q)
  have hquery : (if (p ++ qpart).contains '?' = true then
      ((p ++ qpart).takeWhile (fun c => c != '?'),
        ((p ++ qpart).dropWhile (fun c => c != '?')).drop 1)
      else (p ++ qpart, [])) = (p, q) := by
    rcases hqcase with ⟨hq1, hq2⟩ | hq1
    · subst hq1; subst hq2
      rw [if_neg ?_]
      · simp
      · intro hmem
        rw [containsCh_true_iff, List.append_nil] at hmem
        exact (hp '?' hmem).2.2 rfl
    · subst hq1
      rw [if_pos ?_]
      · have ht : (p ++ '?' :: q).takeWhile (fun c => c != '?') = p := by
          rw [takeWhile_append_all _ _ _
            (fun c hc => by simp; exact (hp c hc).2.2)]
          rw [List.takeWhile_cons, if_neg (by simp)]
          simp
        have hd : (p ++ '?' :: q).dropWhile (fun c => c != '?') = '?' :: q := by
          rw [dropWhile_append_all _ _ _
            (fun c hc => by simp; exact (hp c hc).2.2)]
          rw [List.dropWhile_cons, if_neg (by simp)]
        rw [ht, hd]
        simp
      · rw [containsCh_true_iff]
        exact List.mem_append.mpr (Or.inr (by simp))
  -- cleanliness of the rebuilt string pieces
  have hclean_tail : ∀ c ∈ '/' :: '/' :: (n ++ (p ++ qpart)), isUrlCleanCh c = true := by
    intro c hc
    rcases List.mem_cons.mp hc with hc | hc
    · subst hc; decide
    rcases List.mem_cons.mp hc with hc | hc
    · subst hc; decide
    rcases List.mem_append.mp hc with hc | hc
    · exact (hn c hc).2
    rcases List.mem_append.mp hc with hc | hc
    · exact (hp c hc).1
    · rcases hqcase with ⟨hq1, _⟩ | hq1
      · rw [hq1] at hc; cases hc
      · rw [hq1] at hc
        rcases List.mem_cons.mp hc with hc | hc
        · subst hc; decide
        · exact (hq c hc).1
  rcases hs_head with hs0 | ⟨hd, tl, hs0, halpha, hascii⟩
  · -- no scheme: the rebuilt URL starts with //
    subst hs0
    have hR : urlunsplit ⟨[], n, p, q, []⟩ = '/' :: '/' :: (n ++ (p ++ qpart)) := by
      rw [← hqeq]
      unfold urlunsplit
      simp only [hnT, Bool.not_false, Bool.true_or, if_true, List.isEmpty_nil]
      rcases hp_shape with hp0 | ⟨pt, hp0⟩ <;> subst hp0 <;> simp
    rw [hR]
    have hfil : ('/' :: '/' :: (n ++ (p ++ qpart))).filter isUrlCleanCh
        = '/' :: '/' :: (n ++ (p ++ qpart)) :=
      List.filter_eq_self.mpr hclean_tail
    have hsps : splitSchemeD [] ('/' :: '/' :: (n ++ (p ++ qpart)))
        = ([], '/' :: '/' :: (n ++ (p ++ qpart))) :=
      splitSchemeD_of_not_alpha _ _ rfl
    simp only [urlsplitE, hfil, hsps]
    have htake2 : ('/' :: '/' :: (n ++ (p ++ qpart))).take 2 = ['/', '/'] := rfl
    rw [if_pos htake2]
    simp only [List.drop_succ_cons, List.drop_zero, htw, hdw]
    rw [bool_br_eq_false _ _ hn_br, if_neg Bool.false_ne_true]
    rw [hnofrag, if_neg Bool.false_ne_true]
    dsimp only
    rw [hquery]
  · -- scheme present: the rebuilt URL starts with the scheme and a colon
    subst hs0
    have hR : urlunsplit ⟨hd :: tl, n, p, q, []⟩
        = (hd :: tl) ++ ':' :: ('/' :: '/' :: (n ++ (p ++ qpart))) := by
      rw [← hqeq]
      unfold urlunsplit
      simp only [hnT, Bool.not_false, Bool.true_or, if_true, List.isEmpty_cons]
      rcases hp_shape with hp0 | ⟨pt, hp0⟩ <;> subst hp0 <;>
        cases hq0 : q <;> simp [hq0]
    rw [hR]
    have hclean : ((hd :: tl) ++ ':' :: ('/' :: '/' :: (n ++ (p ++ qpart)))).filter
        isUrlCleanCh = (hd :: tl) ++ ':' :: ('/' :: '/' :: (n ++ (p ++ qpart))) := by
      refine List.filter_eq_self.mpr ?_
      intro c hc
      rcases List.mem_append.mp hc with hc | hc
      · exact (schemeChars_self_facts c (hs_chars c hc)).1
      rcases List.mem_cons.mp hc with hc | hc
      · subst hc; decide
      · exact hclean_tail c hc
    have hsps : splitSchemeD [] ((hd :: tl) ++ ':' :: ('/' :: '/' :: (n ++ (p ++ qpart))))
        = (hd :: tl, '/' :: '/' :: (n ++ (p ++ qpart))) :=
      splitSchemeD_rebuild (hd :: tl) _ hs_chars hs_low hd tl rfl halpha hascii
    simp only [urlsplitE, hclean, hsps]
    have htake2 : ('/' :: '/' :: (n ++ (p ++ qpart))).take 2 = ['/', '/'] := rfl
    rw [if_pos htake2]
    simp only [List.drop_succ_cons, List.drop_zero, htw, hdw]
    rw [bool_br_eq_false _ _ hn_br, if_neg Bool.false_ne_true]
    rw [hnofrag, if_neg Bool.false_ne_true]
    dsimp only
    rw [hquery]

/-- Canonical form of `urlunsplit` on a fragment-free result with a
non-empty netloc and an absolute-or-empty path. -/
theorem urlunsplit_eq (s n p q : List Char) (hn : n ≠ [])
    (hp_shape : p = [] ∨ ∃ t, p = '/' :: t) :
    urlunsplit ⟨s, n, p, q, []⟩ =
      ((if s.isEmpty then [] else s ++ [':']) ++ '/' :: '/' :: (n ++ p)) ++
        (if q.isEmpty then [] else '?' :: q) := by
  have hnT : n.isEmpty = false := by
    cases n with
    | nil => exact absurd rfl hn
    | cons a b => rfl
  unfold urlunsplit
  rcases hp_shape with hp0 | ⟨t, hp0⟩ <;> subst hp0 <;>
    cases s <;> cases q <;> simp [hnT]

theorem unsplit_getLast_q (s n p q : List Char) (hn : n ≠ [])
    (hp_shape : p = [] ∨ ∃ t, p = '/' :: t) (hqne : q ≠ []) :
    (urlunsplit ⟨s, n, p, q, []⟩).getLast? = q.getLast? := by
  rw [urlunsplit_eq s n p q hn hp_shape]
  cases q with
  | nil => exact absurd rfl hqne
  | cons x xs =>
    rw [if_neg (by simp : ¬((x :: xs : List Char).isEmpty = true))]
    rw [List.getLast?_append_of_ne_nil _ (by simp)]
    exact List.getLast?_cons_cons

theorem unsplit_getLast_p (s n p : List Char) (hn : n ≠ [])
    (hp_shape : p = [] ∨ ∃ t, p = '/' :: t) (hpne : p ≠ []) :
    (urlunsplit ⟨s, n, p, [], []⟩).getLast? = p.getLast? := by
  rw [urlunsplit_eq s n p [] hn hp_shape]
  rw [if_pos List.isEmpty_nil, List.append_nil]
  have hsh : (if s.isEmpty then [] else s ++ [':']) ++ '/' :: '/' :: (n ++ p)
      = ((if s.isEmpty then [] else s ++ [':']) ++ ('/' :: '/' :: n)) ++ p := by
    simp
  rw [hsh]
  exact List.getLast?_append_of_ne_nil _ hpne

theorem unsplit_getLast_n (s n : List Char) (hn : n ≠ []) :
    (urlunsplit ⟨s, n, [], [], []⟩).getLast? = n.getLast? := by
  rw [urlunsplit_eq s n [] [] hn (Or.inl rfl)]
  rw [if_pos List.isEmpty_nil, List.append_nil, List.append_nil]
  have hsh : (if s.isEmpty then [] else s ++ [':']) ++ '/' :: '/' :: n
      = ((if s.isEmpty then [] else s ++ [':']) ++ ['/', '/']) ++ n := by
    simp
  rw [hsh]
  exact List.getLast?_append_of_ne_nil _ hn

theorem unsplit_dropLast (s n p : List Char) (hn : n ≠ [])
    (hp_shape : p = [] ∨ ∃ t, p = '/' :: t) (hpne : p ≠ []) :
    (urlunsplit ⟨s, n, p, [], []⟩).dropLast = urlunsplit ⟨s, n, p.dropLast, [], []⟩ := by
  have hshape2 : p.dropLast = [] ∨ ∃ t, p.dropLast = '/' :: t := by
    rcases hp_shape with hp0 | ⟨t, hp0⟩
    · exact absurd hp0 hpne
    · subst hp0
      cases t with
      | nil => exact Or.inl rfl
      | cons x xs => exact Or.inr ⟨(x :: xs).dropLast, rfl⟩
  rw [urlunsplit_eq s n p [] hn hp_shape, urlunsplit_eq s n p.dropLast [] hn hshape2]
  rw [if_pos List.isEmpty_nil, List.append_nil, List.append_nil]
  have hsh : ∀ x : List Char, (if s.isEmpty then [] else s ++ [':']) ++ '/' :: '/' :: (n ++ x)
      = ((if s.isEmpty then [] else s ++ [':']) ++ ('/' :: '/' :: n)) ++ x := by
    intro x; simp
  rw [hsh p, hsh p.dropLast]
  exact dropLast_append_ne _ _ hpne

/-- A URL rebuilt from well-formed fragment-free components that does
not end in a slash is a fixed point of `normalize_url`. -/
theorem normalize_fix (s n p q : List Char)
    (hs_chars : ∀ c ∈ s, c ∈ schemeChars)
    (hs_low : ∀ c ∈ s, c.toLower = c)
    (hs_head : s = [] ∨ ∃ hd tl, s = hd :: tl ∧ hd.isAlpha = true ∧ hd.toNat ≤ 127)
    (hn_ne : n ≠ [])
    (hn : ∀ c ∈ n, isNetlocDelim c = false ∧ isUrlCleanCh c = true)
    (hn_br : n.contains '[' = n.contains ']')
    (hp_shape : p = [] ∨ ∃ t, p = '/' :: t)
    (hp : ∀ c ∈ p, isUrlCleanCh c = true ∧ c ≠ '#' ∧ c ≠ '?')
    (hq : ∀ c ∈ q, isUrlCleanCh c = true ∧ c ≠ '#')
    (hsemi : p.contains ';' = false)
    (hlast : (urlunsplit ⟨s, n, p, q, []⟩).getLast? ≠ some '/') :
    normalize_url (urlunsplit ⟨s, n, p, q, []⟩) [] = .ok (urlunsplit ⟨s, n, p, q, []⟩) := by
  have hre := urlsplitE_rebuild s n p q hs_chars hs_low hs_head hn_ne hn hn_br hp_shape hp hq
  have hparse : urlparseE [] (urlunsplit ⟨s, n, p, q, []⟩) = .ok ⟨s, n, p, [], q, []⟩ := by
    simp only [urlparseE, hre]
    rw [hsemi]
    simp
  have hbeq : ((urlunsplit ⟨s, n, p, q, []⟩).getLast? == some '/') = false :=
    beq_eq_false_iff_ne.mpr hlast
  simp only [normalize_url, List.isEmpty_nil, eq_self_iff_true, if_true, hparse, geturl,
    rejoinParams, Bool.not_true, Bool.false_eq_true, if_false, hbeq]

/-- C3 (amended): `normalize_url` is idempotent on every all-ASCII URL
whose parse succeeds with a non-empty netloc, a path with no `;`, a
query not ending in `/`, and a path not ending in a double slash: the
first application reaches a fixed point.  (As literally stated the
claim is false: a URL whose normalization again ends in `/` — e.g. a
`//` path — normalizes twice to two different strings, see the
counterexample.) -/
theorem normalize_idempotent (u : List Char) (r : SplitResult)
    (hascii : ∀ c ∈ u, c.toNat ≤ 127)
    (hr : urlsplitE [] u = .ok r)
    (hn_ne : r.netloc ≠ [])
    (hsemi : r.path.contains ';' = false)
    (hql : r.query.getLast? ≠ some '/')
    (hpd : ¬(r.path.getLast? = some '/' ∧ r.path.dropLast.getLast? = some '/')) :
    ∃ v, normalize_url u [] = .ok v ∧ normalize_url v [] = .ok v := by
  obtain ⟨hw1, hw2, hw3, hw4, hw5, hw6, hw7⟩ := urlsplitE_wf u r hr
  have hs_chars : ∀ c ∈ r.scheme, c ∈ schemeChars := fun c hc => (hw1 c hc).1
  have hs_low : ∀ c ∈ r.scheme, c.toLower = c := fun c hc => (hw1 c hc).2
  have hn' : ∀ c ∈ r.netloc, isNetlocDelim c = false ∧ isUrlCleanCh c = true :=
    fun c hc => ⟨(hw3 c hc).1, (List.mem_filter.mp (hw3 c hc).2).2⟩
  have hp_shape := hw5 hn_ne
  have hp' : ∀ c ∈ r.path, isUrlCleanCh c = true ∧ c ≠ '#' ∧ c ≠ '?' :=
    fun c hc => ⟨(List.mem_filter.mp (hw6 c hc).1).2, (hw6 c hc).2.1, (hw6 c hc).2.2⟩
  have hq' : ∀ c ∈ r.query, isUrlCleanCh c = true ∧ c ≠ '#' :=
    fun c hc => ⟨(List.mem_filter.mp (hw7 c hc).1).2, (hw7 c hc).2⟩
  have hparse_u : urlparseE [] u
      = .ok ⟨r.scheme, r.netloc, r.path, [], r.query, r.fragment⟩ := by
    simp only [urlparseE, hr]
    rw [hsemi]
    simp
  have h1 : normalize_url u [] = .ok
      (if (urlunsplit ⟨r.scheme, r.netloc, r.path, r.query, []⟩).getLast? == some '/'
        then (urlunsplit ⟨r.scheme, r.netloc, r.path, r.query, []⟩).dropLast
        else urlunsplit ⟨r.scheme, r.netloc, r.path, r.query, []⟩) := by
    simp only [normalize_url, List.isEmpty_nil, eq_self_iff_true, if_true, hparse_u, geturl,
      rejoinParams, Bool.not_true, Bool.false_eq_true, if_false]
  cases hc : ((urlunsplit ⟨r.scheme, r.netloc, r.path, r.query, []⟩).getLast? == some '/') with
  | false =>
    refine ⟨urlunsplit ⟨r.scheme, r.netloc, r.path, r.query, []⟩, ?_, ?_⟩
    · rw [h1, hc, if_neg Bool.false_ne_true]
    · exact normalize_fix _ _ _ _ hs_chars hs_low hw2 hn_ne hn' hw4 hp_shape hp' hq' hsemi
        (beq_eq_false_iff_ne.mp hc)
  | true =>
    have hlast0 : (urlunsplit ⟨r.scheme, r.netloc, r.path, r.query, []⟩).getLast?
        = some '/' := eq_of_beq hc
    have hq0 : r.query = [] := by
      by_contra hqne
      rw [unsplit_getLast_q _ _ _ _ hn_ne hp_shape hqne] at hlast0
      exact hql hlast0
    rw [hq0] at h1 hc hlast0
    have hpne : r.path ≠ [] := by
      intro hp0
      rw [hp0, unsplit_getLast_n _ _ hn_ne] at hlast0
      have hmem := List.mem_of_mem_getLast? hlast0
      exact absurd (hn' _ hmem).1 (by decide)
    have hplast : r.path.getLast? = some '/' := by
      rw [unsplit_getLast_p _ _ _ hn_ne hp_shape hpne] at hlast0
      exact hlast0
    have hdrop : (urlunsplit ⟨r.scheme, r.netloc, r.path, [], []⟩).dropLast
        = urlunsplit ⟨r.scheme, r.netloc, r.path.dropLast, [], []⟩ :=
      unsplit_dropLast _ _ _ hn_ne hp_shape hpne
    have hshape2 : r.path.dropLast = [] ∨ ∃ t, r.path.dropLast = '/' :: t := by
      rcases hp_shape with hp0 | ⟨t, hp0⟩
      · exact absurd hp0 hpne
      · rw [hp0]
        cases t with
        | nil => exact Or.inl rfl
        | cons x xs => exact Or.inr ⟨(x :: xs).dropLast, rfl⟩
    have hp2 : ∀ c ∈ r.path.dropLast, isUrlCleanCh c = true ∧ c ≠ '#' ∧ c ≠ '?' :=
      fun c hc2 => hp' c ((List.dropLast_sublist r.path).mem hc2)
    have hsemi2 : r.path.dropLast.contains ';' = false := by
      rw [containsCh_false_iff]
      intro hmem
      rw [containsCh_false_iff] at hsemi
      exact hsemi ((List.dropLast_sublist r.path).mem hmem)
    have hq2 : ∀ c ∈ ([] : List Char), isUrlCleanCh c = true ∧ c ≠ '#' :=
      fun c hc2 => absurd hc2 (List.not_mem_nil c)
    have hlast2 : (urlunsplit ⟨r.scheme, r.netloc, r.path.dropLast, [], []⟩).getLast?
        ≠ some '/' := by
      cases hdl : r.path.dropLast with
      | nil =>
        rw [unsplit_getLast_n _ _ hn_ne]
        intro hsome
        have hmem := List.mem_of_mem_getLast? hsome
        exact absurd (hn' _ hmem).1 (by decide)
      | cons x xs =>
        rw [unsplit_getLast_p _ _ _ hn_ne (hdl ▸ hshape2) (by simp)]
        intro hsome
        exact hpd ⟨hplast, by rw [hdl]; exact hsome⟩
    refine ⟨urlunsplit ⟨r.scheme, r.netloc, r.path.dropLast, [], []⟩, ?_, ?_⟩
    · rw [h1, hc, if_pos rfl, hdrop]
    · exact normalize_fix _ _ _ _ hs_chars hs_low hw2 hn_ne hn' hw4 hshape2 hp2 hq2 hsemi2
        hlast2

/-- Witness for C3: a well-formed knowledge-base article URL is
normalized to itself, and the result is again a fixed point. -/
theorem normalize_idempotent_witness :
    ∃ v, normalize_url ("https://support.haltech.com/portal/en/kb/articles/boost-control".data)
        [] = .ok v ∧ normalize_url v [] = .ok v :=
  normalize_idempotent ("https://support.haltech.com/portal/en/kb/articles/boost-control".data)
    ⟨"https".data, "support.haltech.com".data,
      "/portal/en/kb/articles/boost-control".data, [], []⟩
    (by decide) rfl (by decide) rfl (by decide) (by decide)

/-- Counterexample to C3 as literally stated: for the URL
`https://support.haltech.com//` one application of `normalize_url`
returns `https://support.haltech.com/`, but a second application
removes another slash, so normalization is not idempotent on it. -/
theorem normalize_not_idempotent :
    normalize_url ("https://support.haltech.com//".data) []
      = .ok ("https://support.haltech.com/".data) ∧
    normalize_url ("https://support.haltech.com/".data) []
      = .ok ("https://support.haltech.com".data) ∧
    ("https://support.haltech.com".data ≠ "https://support.haltech.com/".data) :=
  ⟨rfl, rfl, by decide⟩

end Haltech
